import Mathlib

/-!
Verification of the go-torrent-client download core.

A shallow embedding of the Go sources

* `src/connection/connect.go`  (handshake: `newHandshake`, `serialize`, `readHandshake`,
  `makeHandShake`),
* `src/download/download.go`   (`readMessage`, `attemptDownloadPiece`, `checkIntegrity`,
  `startDownload`, `Download`),
* `src/torrentfile/torrentfile.go` (`getHashPieces`),

followed by the theorems that settle the claims C1 .. C10 of the specification.

Modelling conventions.

* A Go `byte` is a `Fin 256`; a `[]byte` or `string` is a `List Byte`; a `[20]byte` is a list
  together with the proof that it has 20 elements.
* A Go `int` is an `Int` within the range of the platform (`Platform`: 32 or 64 bits).  The
  arithmetic of the coordinator (`seedQueue`, `collect`) wraps at that width
  (`Platform.wrap`), and `make([]byte, n)` panics for a negative `n` and for an `n` above the
  limit of the runtime (`Platform.makePanics`).  The counters of a piece attempt are kept
  unwrapped: `requested` never exceeds the piece length and `backlog` never exceeds
  `MaxBacklog` (`pipelining_bound`).  The narrowing conversion `byte(len(h.Pstr))` is modelled
  with its explicit `% 256`.
* A byte stream that is read with `io.ReadFull` is the list of the bytes that arrive before
  the deadline; reading more bytes than the stream holds is the read error.
* Channels and the network are the environment: a function that talks to them takes what it
  receives as an argument and returns the log of what it sends.
-/

namespace GoTorrent

/-! ## Bytes -/

/-- A Go `byte`. -/
abbrev Byte := Fin 256

/-- A Go `[20]byte`. -/
abbrev Bytes20 := { l : List Byte // l.length = 20 }

/-- The bytes of an ASCII string literal. -/
def asciiBytes (s : String) : List Byte :=
  s.toList.map (fun c => Fin.ofNat c.toNat)

/-- The Go conversion `byte(n)` of a non-negative `int`. -/
def toByte (n : Nat) : Byte := ⟨n % 256, Nat.mod_lt n (by decide)⟩

/-- The Go expression `make([]byte, n)`: `n` zero bytes. -/
def makeBytes (n : Nat) : List Byte := List.replicate n 0

/-- The Go builtin `copy(buf[off:], src)`: overwrites `buf` from offset `off` with as many
bytes of `src` as fit, and returns the new buffer with the number of bytes copied. -/
def copyAt (buf : List Byte) (off : Nat) (src : List Byte) : List Byte × Nat :=
  let n := min (buf.length - off) src.length
  (buf.take off ++ src.take n ++ buf.drop (off + n), n)

/-! ## The platform -/

/-- The Go implementation the program runs on: the width of `int` in bits, and the largest
length `maxAlloc` that `make([]byte, n)` accepts (the limit of the runtime: 2^48 on
linux/amd64, 2^32 - 1 on linux/386, and at least 2^31 - 1 on every port).  An allocation
within the limit is taken to succeed. -/
structure Platform where
  intBits : Nat
  maxAlloc : Nat
  intBits_eq : intBits = 32 ∨ intBits = 64
  maxAlloc_ge : 2 ^ 31 - 1 ≤ maxAlloc

/-- The largest `int` of the platform. -/
def Platform.maxInt (P : Platform) : Int := 2 ^ (P.intBits - 1) - 1

/-- The `int` that an arithmetic operation yields whose exact result is `x`: the result is
reduced modulo 2^intBits into the range of `int` (two's complement wrap-around). -/
def Platform.wrap (P : Platform) (x : Int) : Int :=
  (x + 2 ^ (P.intBits - 1)) % 2 ^ P.intBits - 2 ^ (P.intBits - 1)

/-- Whether `make([]byte, n)` panics ("makeslice: len out of range"). -/
def Platform.makePanics (P : Platform) (n : Int) : Bool :=
  decide (n < 0) || decide ((P.maxAlloc : Int) < n)

/-- The port linux/amd64: 64-bit `int`, `maxAlloc` = 2^48. -/
def amd64 : Platform :=
  { intBits := 64, maxAlloc := 2 ^ 48, intBits_eq := Or.inr rfl, maxAlloc_ge := by norm_num }

/-- The port linux/386: 32-bit `int`, `maxAlloc` = 2^32 - 1. -/
def linux386 : Platform :=
  { intBits := 32, maxAlloc := 2 ^ 32 - 1, intBits_eq := Or.inl rfl, maxAlloc_ge := by norm_num }

/-! ## connection/connect.go : the handshake -/

/-- The struct `Handshake`. -/
structure Handshake where
  Pstr : List Byte
  InfoHash : Bytes20
  OurID : Bytes20
deriving DecidableEq

/-- The errors the handshake functions return. -/
inductive HandshakeError where
  /-- `io.ReadFull` could not fill its buffer (end of stream or deadline). -/
  | readFailed
  /-- `conn.Write` failed. -/
  | writeFailed
  /-- The error "pstrlen cannot be 0". -/
  | pstrlenZero
  /-- The error "Infohash mismatched!". -/
  | infoHashMismatch
deriving DecidableEq, Repr

/-- The canonical protocol string. -/
def canonicalPstr : List Byte := asciiBytes "BitTorrent protocol"

/-- The function `newHandshake` (connect.go 29-35). -/
def newHandshake (infoHash ourID : Bytes20) : Handshake :=
  { Pstr := canonicalPstr, InfoHash := infoHash, OurID := ourID }

/-- The method `Handshake.serialize` (connect.go 37-51). -/
def Handshake.serialize (h : Handshake) : List Byte :=
  let buf := makeBytes (h.Pstr.length + 49)
  let buf := buf.set 0 (toByte h.Pstr.length)
  let curr := 1
  let (buf, n) := copyAt buf curr h.Pstr
  let curr := curr + n
  let (buf, n) := copyAt buf curr (makeBytes 8)
  let curr := curr + n
  let (buf, n) := copyAt buf curr h.InfoHash.val
  let curr := curr + n
  let (buf, _) := copyAt buf curr h.OurID.val
  buf

/-- The call `io.ReadFull(r, buf)` with `len(buf) = n` on the stream `r`: the `n` bytes read
and the rest of the stream, or nothing when the stream holds fewer than `n` bytes. -/
def readFull (r : List Byte) (n : Nat) : Option (List Byte × List Byte) :=
  if n ≤ r.length then some (r.take n, r.drop n) else none

/-- The Go statement `copy(dst[:], src)` for a zeroed `dst` of type `[20]byte`. -/
def copy20 (src : List Byte) : Bytes20 :=
  ⟨src.take 20 ++ makeBytes (20 - (src.take 20).length), by
    simp only [List.length_append, makeBytes, List.length_replicate, List.length_take]
    omega⟩

/-- The function `readHandshake` (connect.go 53-84); it returns the handshake read and the
rest of the stream. -/
def readHandshake (r : List Byte) : Except HandshakeError (Handshake × List Byte) :=
  match readFull r 1 with
  | none => .error .readFailed
  | some (lengthBuf, r) =>
    let pstrlen := (lengthBuf.headD 0).val
    if pstrlen = 0 then .error .pstrlenZero
    else
      match readFull r (48 + pstrlen) with
      | none => .error .readFailed
      | some (handshakeBuf, r) =>
        let infoHash := copy20 ((handshakeBuf.drop (pstrlen + 8)).take 20)
        let ourID := copy20 (handshakeBuf.drop (pstrlen + 8 + 20))
        .ok ({ Pstr := handshakeBuf.take pstrlen, InfoHash := infoHash, OurID := ourID }, r)

/-- A connection as the handshake sees it: the bytes the peer delivers before the deadline and
whether our `Write` succeeds. -/
structure Conn where
  incoming : List Byte
  writeOk : Bool

/-- The function `makeHandShake` (connect.go 86-107). -/
def makeHandShake (conn : Conn) (infoHash ourID : Bytes20) : Except HandshakeError Handshake :=
  let req := newHandshake infoHash ourID
  let _written := req.serialize
  if !conn.writeOk then .error .writeFailed
  else
    match readHandshake conn.incoming with
    | .error e => .error e
    | .ok (res, _) =>
      if res.InfoHash.val ≠ infoHash.val then .error .infoHashMismatch
      else .ok res

/-! ## The packages `message`, `bitfield` and `peers`

These packages of the repository are imported by the sources verified here; their behaviour
is taken from the specification (sections 3 and 4.1). -/

/-- Modelled from the spec: the struct `message.Message` (package `message`), a message id
and its payload. -/
structure Message where
  ID : Byte
  Payload : List Byte
deriving DecidableEq

/-- Modelled from the spec: the message id `message.MsgChoke` of the table in section 4.1. -/
def MsgChoke : Byte := 0

/-- Modelled from the spec: the message id `message.MsgUnchoke` of the table in section 4.1. -/
def MsgUnchoke : Byte := 1

/-- Modelled from the spec: the message id `message.MsgHave` of the table in section 4.1. -/
def MsgHave : Byte := 4

/-- Modelled from the spec: the message id `message.MsgPiece` of the table in section 4.1. -/
def MsgPiece : Byte := 7

/-- The value of a big-endian sequence of bytes. -/
def bigEndian (bs : List Byte) : Nat :=
  bs.foldl (fun acc b => acc * 256 + b.val) 0

/-- Modelled from the spec: the function `message.ParseHave`, "requires ID=4 and payload
length=4; fails otherwise"; the payload is the big-endian piece index. -/
def ParseHave (msg : Message) : Option Int :=
  if msg.ID ≠ MsgHave then none
  else if msg.Payload.length ≠ 4 then none
  else some (bigEndian msg.Payload)

/-- Modelled from the spec: the function `message.ParsePiece`, "requires ID=7, payload ≥ 8
bytes, index == expected_index, begin + block_len ≤ len(dest_buf); copies the block into
dest_buf[begin:] and returns the block length. Fails if any check fails."  The result is the
block length and the buffer after the copy. -/
def ParsePiece (index : Int) (buf : List Byte) (msg : Message) : Option (Int × List Byte) :=
  if msg.ID ≠ MsgPiece then none
  else if msg.Payload.length < 8 then none
  else if (bigEndian (msg.Payload.take 4) : Int) ≠ index then none
  else
    let begin := bigEndian ((msg.Payload.drop 4).take 4)
    let data := msg.Payload.drop 8
    if begin + data.length > buf.length then none
    else some (data.length, (copyAt buf begin data).1)

/-- Modelled from the spec: the method `Bitfield.HasPiece` (package `bitfield`), "piece index
i is bit 7 − (i mod 8) of byte i/8"; an index outside the bitfield is not had. -/
def HasPiece (bf : List Byte) (index : Int) : Bool :=
  if index < 0 then false
  else
    match bf.get? (index.toNat / 8) with
    | none => false
    | some b => (b.val / 2 ^ (7 - index.toNat % 8)) % 2 = 1

/-- Modelled from the spec: the method `Bitfield.SetPiece` (package `bitfield`), which sets
bit 7 − (i mod 8) of byte i/8; an index outside the bitfield changes nothing. -/
def SetPiece (bf : List Byte) (index : Int) : List Byte :=
  if index < 0 then bf
  else
    match bf.get? (index.toNat / 8) with
    | none => bf
    | some b =>
      if (b.val / 2 ^ (7 - index.toNat % 8)) % 2 = 1 then bf
      else bf.set (index.toNat / 8) (toByte (b.val + 2 ^ (7 - index.toNat % 8)))

/-- Modelled from the spec: the struct `peers.Peer` (package `peers`), an "(ipv4, port)"
pair. -/
structure Peer where
  IP : List Byte
  Port : Nat
deriving DecidableEq

/-! ## download/download.go : one piece attempt -/

/-- The constant `MaxBlockSize`. -/
def MaxBlockSize : Int := 16384

/-- The constant `MaxBacklog`. -/
def MaxBacklog : Int := 5

/-- The struct `Torrent`. -/
structure Torrent where
  Peers : List Peer
  OurId : Bytes20
  InfoHash : Bytes20
  PieceHashes : List (List Byte)
  PieceLength : Int
  Length : Int
  Name : String

/-- The struct `onePiece`, a piece job. -/
structure onePiece where
  index : Int
  hash : List Byte
  length : Int
deriving DecidableEq

/-- The struct `outputData`, a piece result. -/
structure outputData where
  index : Int
  out : List Byte
deriving DecidableEq

/-- The state of `connection.Client` that the download code reads and writes: the choke flag
and the peer's bitfield.  Its connection is the environment (`ReadResult`, `sendOk`). -/
structure Client where
  Choked : Bool
  Bitfield : List Byte
deriving DecidableEq

/-- The struct `pieceProgress`. -/
structure pieceProgress where
  index : Int
  client : Client
  buf : List Byte
  downloaded : Int
  requested : Int
  backlog : Int
deriving DecidableEq

/-- What one call of `client.Read()` returns: an error, the keep-alive (a nil message), or a
message. -/
inductive ReadResult where
  | err
  | keepAlive
  | msg (m : Message)
deriving DecidableEq

/-- The method `pieceProgress.readMessage` (download.go 52-82), given what `client.Read()`
returns; `none` is the returned error. -/
def pieceProgress.readMessage (state : pieceProgress) (r : ReadResult) : Option pieceProgress :=
  match r with
  | .err => none
  | .keepAlive => some state
  | .msg msg =>
    if msg.ID = MsgUnchoke then
      some { state with client := { state.client with Choked := false } }
    else if msg.ID = MsgChoke then
      some { state with client := { state.client with Choked := true } }
    else if msg.ID = MsgHave then
      match ParseHave msg with
      | none => none
      | some index =>
        some { state with client := { state.client with Bitfield := SetPiece state.client.Bitfield index } }
    else if msg.ID = MsgPiece then
      match ParsePiece state.index state.buf msg with
      | none => none
      | some (n, buf) =>
        some { state with buf := buf, downloaded := state.downloaded + n, backlog := state.backlog - 1 }
    else some state

/-- The values of a piece attempt at one point of its execution. -/
structure Snapshot where
  choked : Bool
  downloaded : Int
  requested : Int
  backlog : Int
deriving DecidableEq

/-- The snapshot of a `pieceProgress`. -/
def pieceProgress.snapshot (state : pieceProgress) : Snapshot :=
  { choked := state.client.Choked, downloaded := state.downloaded,
    requested := state.requested, backlog := state.backlog }

/-- What a piece attempt does on its connection, in order; every event carries the snapshot
of the attempt at the moment the call is made. -/
inductive Event where
  /-- The call `c.SendRequest(index, begin, length)` and whether it succeeded. -/
  | request (index begin length : Int) (ok : Bool) (at_ : Snapshot)
  /-- The call `state.readMessage()` and what `client.Read()` returned. -/
  | read (r : ReadResult) (at_ : Snapshot)
deriving DecidableEq

/-- How a Go function ends that returns `([]byte, error)`. -/
inductive Outcome where
  /-- It returned the buffer and a nil error. -/
  | ok (buf : List Byte)
  /-- It returned an error. -/
  | err
  /-- It panicked. -/
  | panic
deriving DecidableEq

/-- The result of the inner loop of `attemptDownloadPiece`. -/
structure RequestLoopResult where
  state : pieceProgress
  sent : Nat
  events : List Event
  ok : Bool

/-- The inner loop of `attemptDownloadPiece` (download.go 98-111).  `sendOk k` tells whether
the `k`-th `SendRequest` on this connection succeeds and `sent` counts the calls made so far.
The first argument bounds the number of iterations; `attemptLoop` passes
`MaxBacklog - backlog`, which the loop never exceeds because every iteration increments
`backlog` (`requestLoop_exit`). -/
def requestLoop (sendOk : Nat → Bool) (op : onePiece) :
    Nat → Nat → pieceProgress → RequestLoopResult
  | 0, sent, state => { state := state, sent := sent, events := [], ok := true }
  | fuel + 1, sent, state =>
    if state.backlog < MaxBacklog ∧ state.requested < op.length then
      let blockSize :=
        if op.length - state.requested < MaxBlockSize then op.length - state.requested
        else MaxBlockSize
      let ev := Event.request op.index state.requested blockSize (sendOk sent) state.snapshot
      if sendOk sent then
        let r := requestLoop sendOk op fuel (sent + 1)
          { state with backlog := state.backlog + 1, requested := state.requested + blockSize }
        { r with events := ev :: r.events }
      else { state := state, sent := sent + 1, events := [ev], ok := false }
    else { state := state, sent := sent, events := [], ok := true }

/-- The result of a piece attempt: how it ended, what it did on the connection, the state it
ended in, and what is left of the environment. -/
structure AttemptResult where
  outcome : Outcome
  events : List Event
  state : pieceProgress
  incoming : List ReadResult
  sent : Nat

/-- The statement `if !state.client.Choked { for ... }` of `attemptDownloadPiece`
(download.go 97-112). -/
def requestPhase (sendOk : Nat → Bool) (op : onePiece) (sent : Nat) (state : pieceProgress) :
    RequestLoopResult :=
  if !state.client.Choked then
    requestLoop sendOk op (MaxBacklog - state.backlog).toNat sent state
  else { state := state, sent := sent, events := [], ok := true }

/-- The outer loop of `attemptDownloadPiece` (download.go 95-118).  `incoming` lists what the
successive calls of `client.Read()` return before the deadline of the attempt; when the list is
exhausted the next read fails with the deadline error. -/
def attemptLoop (sendOk : Nat → Bool) (op : onePiece) :
    List ReadResult → Nat → pieceProgress → AttemptResult
  | incoming, sent, state =>
    if state.downloaded < op.length then
      let rl := requestPhase sendOk op sent state
      if !rl.ok then
        { outcome := .err, events := rl.events, state := rl.state, incoming := incoming,
          sent := rl.sent }
      else
        match incoming with
        | [] =>
          { outcome := .err, events := rl.events ++ [.read .err rl.state.snapshot],
            state := rl.state, incoming := [], sent := rl.sent }
        | r :: rest =>
          match rl.state.readMessage r with
          | none =>
            { outcome := .err, events := rl.events ++ [.read r rl.state.snapshot],
              state := rl.state, incoming := rest, sent := rl.sent }
          | some state' =>
            let res := attemptLoop sendOk op rest rl.sent state'
            { res with events := rl.events ++ .read r rl.state.snapshot :: res.events }
    else
      { outcome := .ok state.buf, events := [], state := state, incoming := incoming,
        sent := sent }

/-- The function `attemptDownloadPiece` (download.go 84-121).  `make([]byte, op.length)`
panics for a negative length and for a length above the limit of the runtime. -/
def attemptDownloadPiece (P : Platform) (sendOk : Nat → Bool) (incoming : List ReadResult)
    (sent : Nat) (c : Client) (op : onePiece) : AttemptResult :=
  let state : pieceProgress :=
    { index := op.index, client := c, buf := makeBytes op.length.toNat,
      downloaded := 0, requested := 0, backlog := 0 }
  if P.makePanics op.length then
    { outcome := .panic, events := [], state := state, incoming := incoming, sent := sent }
  else attemptLoop sendOk op incoming sent state

/-- The Request messages of a log, in order, as `(index, begin, length)`. -/
def requestsOf : List Event → List (Int × Int × Int)
  | [] => []
  | .request index begin length _ _ :: evs => (index, begin, length) :: requestsOf evs
  | .read _ _ :: evs => requestsOf evs

/-! ## download/download.go : the worker -/

/-- The function `checkIntegrity` (download.go 123-129); `true` is the nil error.  `sha1`
stands for `crypto/sha1.Sum`. -/
def checkIntegrity (sha1 : List Byte → List Byte) (pw : onePiece) (buf : List Byte) : Bool :=
  sha1 buf = pw.hash

/-- What a worker does on the two channels and on its connection, in order. -/
inductive WorkerEvent where
  /-- The loop `for op := range queue` received `op`. -/
  | took (op : onePiece)
  /-- The statement `queue <- op`. -/
  | requeued (op : onePiece)
  /-- The call `attemptDownloadPiece(client, op)` returned this buffer, or an error. -/
  | attempted (op : onePiece) (buf : Option (List Byte))
  /-- The call `client.SendHave(index)`. -/
  | sentHave (index : Int)
  /-- The statement `output <- &outputData{...}`. -/
  | emitted (res : outputData)
  /-- The function returned. -/
  | exited
  /-- The goroutine panicked. -/
  | crashed
deriving DecidableEq

/-- The loop of `startDownload` (download.go 145-167).  The first argument lists the jobs the
worker receives from the queue, in order, until the queue is closed; `incoming`, `sendOk` and
`sent` are the connection as in `attemptLoop`.  A send on either channel completes. -/
def workerLoop (P : Platform) (sha1 : List Byte → List Byte) (sendOk : Nat → Bool) :
    List onePiece → List ReadResult → Nat → Client → List WorkerEvent
  | [], _, _, _ => [.exited]
  | op :: queue, incoming, sent, client =>
    .took op ::
    if !HasPiece client.Bitfield op.index then
      .requeued op :: workerLoop P sha1 sendOk queue incoming sent client
    else
      let r := attemptDownloadPiece P sendOk incoming sent client op
      match r.outcome with
      | .panic => [.crashed]
      | .err => [.attempted op none, .requeued op, .exited]
      | .ok buf =>
        .attempted op (some buf) ::
        if !checkIntegrity sha1 op buf then
          .requeued op :: workerLoop P sha1 sendOk queue r.incoming r.sent r.state.client
        else
          .sentHave op.index :: .emitted { index := op.index, out := buf } ::
            workerLoop P sha1 sendOk queue r.incoming r.sent r.state.client

/-- The function `startDownload` (download.go 132-169).  `newClient` is what
`connection.NewClient` returns: nothing on an error, or the client (choked, with the peer's
bitfield).  The results of `SendUnchoke` and `SendInterested` are discarded by the source. -/
def startDownload (P : Platform) (sha1 : List Byte → List Byte) (sendOk : Nat → Bool)
    (newClient : Option Client) (queue : List onePiece) (incoming : List ReadResult) :
    List WorkerEvent :=
  match newClient with
  | none => [.exited]
  | some client => workerLoop P sha1 sendOk queue incoming 0 client

/-- Whether an event is the receipt of a job. -/
def WorkerEvent.isTook : WorkerEvent → Bool
  | .took _ => true
  | _ => false

/-- Splits the log of a worker at the jobs it took: every job taken, with the events from its
receipt up to the receipt of the next job or the end of the log. -/
def jobSegments : List WorkerEvent → List (onePiece × List WorkerEvent)
  | [] => []
  | .took op :: rest => (op, rest.takeWhile (fun e => !e.isTook)) :: jobSegments rest
  | .requeued _ :: rest => jobSegments rest
  | .attempted _ _ :: rest => jobSegments rest
  | .sentHave _ :: rest => jobSegments rest
  | .emitted _ :: rest => jobSegments rest
  | .exited :: rest => jobSegments rest
  | .crashed :: rest => jobSegments rest

/-- The seeding loop of `Download` (download.go 176-189): the jobs pushed to the queue, in
order.  The queue has capacity `len(torrent.PieceHashes)`, so no push blocks.  The product,
the sum and the difference are `int` operations and wrap. -/
def seedQueue (P : Platform) (torrent : Torrent) : List onePiece :=
  torrent.PieceHashes.enum.map (fun (idx, hsh) =>
    let begin := P.wrap ((idx : Int) * torrent.PieceLength)
    let end_ := P.wrap (begin + torrent.PieceLength)
    let end_ := if end_ > torrent.Length then torrent.Length else end_
    let length := P.wrap (end_ - begin)
    { index := idx, hash := hsh, length := length })

/-- The Go statement `copy(buf[begin:end], src)`: nothing when the slice expression panics
(it needs `0 ≤ begin ≤ end ≤ cap(buf)`), else the buffer after the copy. -/
def copySlice (buf : List Byte) (begin end_ : Int) (src : List Byte) : Option (List Byte) :=
  if 0 ≤ begin ∧ begin ≤ end_ ∧ end_ ≤ buf.length then
    let n := min (end_ - begin).toNat src.length
    some (buf.take begin.toNat ++ src.take n ++ buf.drop (begin.toNat + n))
  else none

/-- How `Download` ends. -/
inductive DownloadOutcome where
  /-- It returned the buffer. -/
  | returned (buf : List Byte)
  /-- It waits for ever on the output channel. -/
  | blocked
  /-- It panicked. -/
  | panicked
deriving DecidableEq

/-- The collecting loop of `Download` (download.go 198-211).  The first argument lists the
results that arrive on the output channel, in order.  The product and the sum are `int`
operations and wrap. -/
def collect (P : Platform) (torrent : Torrent) :
    List outputData → Nat → List Byte → DownloadOutcome
  | results, donePieces, buf =>
    if donePieces < torrent.PieceHashes.length then
      match results with
      | [] => .blocked
      | res :: rest =>
        let begin := P.wrap (res.index * torrent.PieceLength)
        let end_ := P.wrap (begin + torrent.PieceLength)
        let end_ := if end_ > torrent.Length then torrent.Length else end_
        match copySlice buf begin end_ res.out with
        | none => .panicked
        | some buf => collect P torrent rest (donePieces + 1) buf
    else .returned buf

/-- The function `Download` (download.go 171-215): the jobs it seeds the queue with, and how
it ends when `results` are the results that arrive on the output channel.  The workers it
starts are the environment.  `make([]byte, torrent.Length)` panics for a negative length and
for a length above the limit of the runtime. -/
def Download (P : Platform) (torrent : Torrent) (results : List outputData) :
    List onePiece × DownloadOutcome :=
  let queue := seedQueue P torrent
  if P.makePanics torrent.Length then (queue, .panicked)
  else (queue, collect P torrent results 0 (makeBytes torrent.Length.toNat))

/-! ## torrentfile/torrentfile.go -/

/-- How `getHashPieces` ends. -/
inductive HashPiecesOutcome where
  /-- It returned the hashes. -/
  | returned (hashes : List (List Byte))
  /-- The call `log.Fatalln` ended the program. -/
  | fatal
  /-- A slice expression was out of range. -/
  | panic
deriving DecidableEq

/-- The loop of `getHashPieces` (torrentfile.go 57-60).  `backing` is the array behind
`pcsBytes`, whose length is the capacity of the slice, and `len` is `len(pcsBytes)`.  The first
argument bounds the iterations; `getHashPieces` passes `len(pcsBytes)`, and every iteration
advances `i` by 20. -/
def hashLoop (backing : List Byte) (len : Nat) : Nat → Nat → List (List Byte) → HashPiecesOutcome
  | 0, _, hashes => .returned hashes
  | fuel + 1, i, hashes =>
    if i < len then
      if i + 20 ≤ backing.length then
        hashLoop backing len fuel (i + 20) (hashes ++ [(backing.drop i).take 20])
      else .panic
    else .returned hashes

/-- The function `getHashPieces` (torrentfile.go 46-63).  The conversion `[]byte(pcs)` yields
a slice of length `len(pcs)` whose capacity is chosen by the runtime: `spare` is the number of
(zero) bytes of the backing array beyond the length. -/
def getHashPieces (spare : Nat) (pcs : List Byte) : HashPiecesOutcome :=
  let noOfPcs := pcs.length / 20
  let pcsBytes := pcs
  if noOfPcs % 20 ≠ 0 then .fatal
  else hashLoop (pcsBytes ++ makeBytes spare) pcsBytes.length pcsBytes.length 0 []

/-- The descriptor of scenario S2: 20000 bytes in pieces of 16384 bytes. -/
def scenarioS2 : Torrent :=
  { Peers := [], OurId := ⟨makeBytes 20, rfl⟩, InfoHash := ⟨makeBytes 20, rfl⟩,
    PieceHashes := [makeBytes 20, makeBytes 20], PieceLength := 16384, Length := 20000,
    Name := "s2" }

/-- The block size that `attemptDownloadPiece` computes when `requested` bytes are requested
(download.go 99-103). -/
def onePiece.blockSize (op : onePiece) (requested : Int) : Int :=
  if op.length - requested < MaxBlockSize then op.length - requested else MaxBlockSize

/-- The state after the updates `state.backlog++` and `state.requested += blockSize`
(download.go 109-110). -/
def pieceProgress.afterRequest (st : pieceProgress) (op : onePiece) : pieceProgress :=
  { st with backlog := st.backlog + 1, requested := st.requested + op.blockSize st.requested }

/-- The snapshot an event carries. -/
def Event.snap : Event → Snapshot
  | .request _ _ _ _ s => s
  | .read _ s => s

/-- The Requests for the `n` consecutive blocks of a piece from block `k` on: block `j` begins
at `j * MaxBlockSize` and has the block size that `attemptDownloadPiece` computes there. -/
def blockRequests (op : onePiece) : Nat → Nat → List (Int × Int × Int)
  | _, 0 => []
  | k, n + 1 =>
    (op.index, (k : Int) * MaxBlockSize, op.blockSize ((k : Int) * MaxBlockSize)) ::
      blockRequests op (k + 1) n

/-- The shapes of the events of one job of `workerLoop`, from after its receipt up to the
receipt of the next job or the end of the log: a bitfield miss, a panic of the attempt, a
download error, a hash mismatch, or a verified piece; `tail` is `[.exited]` when the queue was
closed after this job and empty otherwise. -/
def SegShape (P : Platform) (sha1 : List Byte → List Byte) (op : onePiece)
    (seg : List WorkerEvent) : Prop :=
  ∃ tail : List WorkerEvent, (tail = [] ∨ tail = [.exited]) ∧
    (seg = .requeued op :: tail
      ∨ (seg = [.crashed] ∧ P.makePanics op.length = true)
      ∨ seg = [.attempted op none, .requeued op, .exited]
      ∨ (∃ buf, sha1 buf ≠ op.hash ∧ seg = .attempted op (some buf) :: .requeued op :: tail)
      ∨ (∃ buf, sha1 buf = op.hash ∧
          seg = .attempted op (some buf) :: .sentHave op.index ::
            .emitted { index := op.index, out := buf } :: tail))

/-! ## Concrete scenarios -/

/-- A stand-in for the digest function in concrete runs: the sum of the bytes. -/
def sumDigest (buf : List Byte) : List Byte := [buf.foldl (fun a b => a + b) 0]

/-- The Unchoke message. -/
def unchokeMsg : ReadResult := .msg { ID := MsgUnchoke, Payload := [] }

/-- A Piece message for piece 1 at offset 0 that carries the two bytes 2, 3. -/
def pieceMsg : ReadResult := .msg { ID := MsgPiece, Payload := [0, 0, 0, 1, 0, 0, 0, 0, 2, 3] }

/-- Three jobs: piece 0, piece 1 with a hash the served bytes do not have, and piece 1 with
the hash they have. -/
def sampleJobs : List onePiece :=
  [{ index := 0, hash := [5], length := 2 }, { index := 1, hash := [6], length := 2 },
   { index := 1, hash := [5], length := 2 }]

/-- The log of a worker on `sampleJobs` whose peer has piece 1 only, unchokes, and serves the
bytes 2, 3 twice. -/
def sampleRun : List WorkerEvent :=
  startDownload amd64 sumDigest (fun _ => true) (some { Choked := true, Bitfield := [0x40] })
    sampleJobs [unchokeMsg, pieceMsg, pieceMsg]

/-- A descriptor whose last piece ends beyond the largest 64-bit `int`: two pieces of 2^62
bytes for 2^62 + 1 bytes. -/
def wrapTorrent : Torrent :=
  { Peers := [], OurId := ⟨makeBytes 20, rfl⟩, InfoHash := ⟨makeBytes 20, rfl⟩,
    PieceHashes := [makeBytes 20, makeBytes 20], PieceLength := 4611686018427387904,
    Length := 4611686018427387905, Name := "wrap" }

/-- A descriptor whose last piece ends beyond the largest 32-bit `int`: two pieces of 2^30 + 1
bytes for 2^31 - 1 bytes. -/
def wrapTorrent32 : Torrent :=
  { Peers := [], OurId := ⟨makeBytes 20, rfl⟩, InfoHash := ⟨makeBytes 20, rfl⟩,
    PieceHashes := [makeBytes 20, makeBytes 20], PieceLength := 1073741825,
    Length := 2147483647, Name := "wrap32" }

/-- The results for `wrapTorrent32`, piece 1 arriving first, each with as many bytes as the
job seeded for it has. -/
def wrapResults32 : List outputData :=
  [{ index := 1, out := makeBytes 1073741825 }, { index := 0, out := makeBytes 1073741825 }]

theorem canonicalPstr_eq : canonicalPstr =
    [66, 105, 116, 84, 111, 114, 114, 101, 110, 116, 32, 112, 114, 111, 116, 111, 99, 111, 108] := by
  decide

theorem canonicalPstr_length : canonicalPstr.length = 19 := by
  rw [canonicalPstr_eq]; rfl

theorem copyAt_fits (a b c src : List Byte) (off n : Nat) (hoff : off = a.length)
    (h : src.length = b.length) (hn : n = b.length) :
    copyAt (a ++ b ++ c) off src = (a ++ src ++ c, n) := by
  subst hoff hn
  simp [copyAt, h]

/-- The wire layout of a serialized handshake, for every protocol string. -/
theorem serialize_eq (h : Handshake) :
    h.serialize = toByte h.Pstr.length :: (h.Pstr ++ makeBytes 8 ++ h.InfoHash.val ++ h.OurID.val) := by
  obtain ⟨pstr, ⟨ih, hih⟩, ⟨id, hid⟩⟩ := h
  have h0 : (makeBytes (pstr.length + 49)).set 0 (toByte pstr.length) =
      [toByte pstr.length] ++ makeBytes pstr.length ++ (makeBytes 8 ++ makeBytes 20 ++ makeBytes 20) := by
    simp only [makeBytes, List.append_assoc]
    rw [show pstr.length + 49 = 1 + (pstr.length + (8 + (20 + 20))) by omega]
    simp only [List.replicate_add]
    rfl
  have h1 := copyAt_fits [toByte pstr.length] (makeBytes pstr.length)
    (makeBytes 8 ++ makeBytes 20 ++ makeBytes 20) pstr 1 pstr.length rfl (by simp [makeBytes])
    (by simp [makeBytes])
  have h2 := copyAt_fits ([toByte pstr.length] ++ pstr) (makeBytes 8)
    (makeBytes 20 ++ makeBytes 20) (makeBytes 8) (1 + pstr.length) 8 (by simp; omega) rfl rfl
  have h3 := copyAt_fits ([toByte pstr.length] ++ pstr ++ makeBytes 8) (makeBytes 20)
    (makeBytes 20) ih (1 + pstr.length + 8) 20 (by simp [makeBytes]; omega)
    (by simp [makeBytes, hih]) rfl
  have h4 := copyAt_fits ([toByte pstr.length] ++ pstr ++ makeBytes 8 ++ ih) (makeBytes 20)
    [] id (1 + pstr.length + 8 + 20) 20 (by simp [makeBytes, hih]; omega)
    (by simp [makeBytes, hid]) rfl
  simp only [List.append_assoc, List.append_nil] at h1 h2 h3 h4
  simp only [Handshake.serialize, h0, List.append_assoc, h1, h2, h3, h4]
  rfl

theorem copy20_of_length (l : List Byte) (h : l.length = 20) : copy20 l = ⟨l, h⟩ := by
  apply Subtype.ext
  simp [copy20, makeBytes, List.take_of_length_le (le_of_eq h), h]

theorem serialize_canonical (infoHash ourID : Bytes20) :
    (newHandshake infoHash ourID).serialize =
      (19 : Byte) :: (canonicalPstr ++ makeBytes 8 ++ infoHash.val ++ ourID.val) := by
  rw [serialize_eq]
  simp only [newHandshake, canonicalPstr_length]
  rfl

/-- What `readHandshake` returns on a stream that is long enough. -/
theorem readHandshake_of_length (p : Byte) (rest : List Byte) (hp : p.val ≠ 0)
    (hlen : 48 + p.val ≤ rest.length) :
    readHandshake (p :: rest) = .ok
      ({ Pstr := rest.take p.val
         InfoHash := copy20 ((rest.drop (p.val + 8)).take 20)
         OurID := copy20 ((rest.drop (p.val + 28)).take 20) }, rest.drop (48 + p.val)) := by
  have e : ((rest.take (48 + p.val)).drop (p.val + 8 + 20)) = (rest.drop (p.val + 28)).take 20 := by
    rw [List.drop_take]
    congr 1
    omega
  have e2 : ((rest.take (48 + p.val)).drop (p.val + 8)).take 20 = (rest.drop (p.val + 8)).take 20 := by
    rw [List.drop_take, List.take_take]
    congr 1
    omega
  have e3 : (rest.take (48 + p.val)).take p.val = rest.take p.val := by
    rw [List.take_take]
    congr 1
    omega
  simp [readHandshake, readFull, hp, hlen, e, e2, e3]

/-- C1. Handshake round trip: reading the serialized canonical handshake built from any
20-byte info hash and any 20-byte peer id succeeds, consumes the whole of it, and returns a
handshake with the protocol string "BitTorrent protocol", the same info hash and the same id. -/
theorem handshake_round_trip (infoHash ourID : Bytes20) :
    readHandshake (newHandshake infoHash ourID).serialize = .ok (newHandshake infoHash ourID, [])
    ∧ (newHandshake infoHash ourID).Pstr = asciiBytes "BitTorrent protocol"
    ∧ (newHandshake infoHash ourID).InfoHash = infoHash
    ∧ (newHandshake infoHash ourID).OurID = ourID := by
  refine ⟨?_, rfl, rfl, rfl⟩
  obtain ⟨ih, hih⟩ := infoHash
  obtain ⟨id, hid⟩ := ourID
  rw [serialize_canonical, readHandshake_of_length _ _ (by decide)
    (by simp [canonicalPstr_length, makeBytes, hih, hid, show ((19 : Byte) : Nat) = 19 from rfl])]
  have hc := canonicalPstr_length
  have e1 : (canonicalPstr ++ makeBytes 8 ++ ih ++ id).take 19 = canonicalPstr := by
    simp [List.take_append_eq_append_take, hc]
  have e2 : ((canonicalPstr ++ makeBytes 8 ++ ih ++ id).drop (19 + 8)).take 20 = ih := by
    rw [show canonicalPstr ++ makeBytes 8 ++ ih ++ id = (canonicalPstr ++ makeBytes 8) ++ (ih ++ id) by
      simp]
    rw [List.drop_append_of_le_length (by simp [hc, makeBytes]), List.drop_of_length_le (by simp [hc, makeBytes])]
    simp [List.take_append_eq_append_take, hih]
  have e3 : ((canonicalPstr ++ makeBytes 8 ++ ih ++ id).drop (19 + 28)).take 20 = id := by
    rw [show canonicalPstr ++ makeBytes 8 ++ ih ++ id = (canonicalPstr ++ makeBytes 8 ++ ih) ++ id by
      simp]
    rw [List.drop_append_of_le_length (by simp [hc, makeBytes, hih]),
      List.drop_of_length_le (by simp [hc, makeBytes, hih])]
    simp [List.take_of_length_le, hid]
  have e4 : (canonicalPstr ++ makeBytes 8 ++ ih ++ id).drop (48 + 19) = [] := by
    apply List.drop_of_length_le
    simp [hc, makeBytes, hih, hid]
  simp only [show ((19 : Byte) : Nat) = 19 from rfl, e1, e2, e3, e4, newHandshake,
    copy20_of_length ih hih, copy20_of_length id hid]

/-- C2. Handshake wire layout: the serialized canonical handshake has exactly 68 bytes; byte 0
is 19, bytes 1..19 are the ASCII text "BitTorrent protocol", bytes 20..27 are eight zero bytes,
bytes 28..47 are the info hash and bytes 48..67 are the peer id; and for every handshake the
output has 49 + len(Pstr) bytes. -/
theorem serialize_wire_layout (infoHash ourID : Bytes20) (h : Handshake) :
    (newHandshake infoHash ourID).serialize.length = 68
    ∧ (newHandshake infoHash ourID).serialize.take 1 = [19]
    ∧ ((newHandshake infoHash ourID).serialize.drop 1).take 19 = asciiBytes "BitTorrent protocol"
    ∧ ((newHandshake infoHash ourID).serialize.drop 20).take 8 = [0, 0, 0, 0, 0, 0, 0, 0]
    ∧ ((newHandshake infoHash ourID).serialize.drop 28).take 20 = infoHash.val
    ∧ ((newHandshake infoHash ourID).serialize.drop 48).take 20 = ourID.val
    ∧ h.serialize.length = 49 + h.Pstr.length := by
  have hgen : h.serialize.length = 49 + h.Pstr.length := by
    rw [serialize_eq]
    simp [makeBytes, h.InfoHash.property, h.OurID.property]
    omega
  obtain ⟨ih, hih⟩ := infoHash
  obtain ⟨id, hid⟩ := ourID
  rw [serialize_canonical, canonicalPstr_eq]
  refine ⟨by simp [makeBytes, hih, hid], rfl, rfl, rfl, ?_, ?_, hgen⟩
  · simp [makeBytes, List.take_append_eq_append_take, hih]
  · simp [makeBytes, hih, List.take_of_length_le, hid]

theorem makeHandShake_ok_iff (p : Byte) (rest : List Byte) (infoHash ourID : Bytes20)
    (hlen : 48 + p.val ≤ rest.length) :
    (∃ res, makeHandShake ⟨p :: rest, true⟩ infoHash ourID = .ok res) ↔
      (p.val ≠ 0 ∧ (rest.drop (p.val + 8)).take 20 = infoHash.val) := by
  by_cases hp : p.val = 0
  · simp [makeHandShake, readHandshake, readFull, hp]
  · have hl : ((rest.drop (p.val + 8)).take 20).length = 20 := by
      simp only [List.length_take, List.length_drop]
      omega
    simp only [makeHandShake, readHandshake_of_length p rest hp hlen, copy20_of_length _ hl]
    by_cases he : (rest.drop (p.val + 8)).take 20 = infoHash.val
    · simp [he, hp]
    · simp [he, hp]

/-- C3. Handshake acceptance: on a reply stream that holds a first byte `pstrlen` followed by
at least 48 + pstrlen more bytes, and when our own write succeeds, `makeHandShake` succeeds if
and only if pstrlen is not 0 and the 20 bytes at offset pstrlen + 8 after the length byte equal
our info hash; replacing the 20 peer id bytes of the reply by any other 20 bytes does not change
whether it succeeds; and `readHandshake` returns the error "pstrlen cannot be 0" whenever the
first byte is 0. -/
theorem makeHandShake_acceptance (p : Byte) (rest : List Byte) (infoHash ourID : Bytes20)
    (hlen : 48 + p.val ≤ rest.length) :
    ((∃ res, makeHandShake ⟨p :: rest, true⟩ infoHash ourID = .ok res) ↔
      (p.val ≠ 0 ∧ (rest.drop (p.val + 8)).take 20 = infoHash.val))
    ∧ (∀ peerId : Bytes20,
        (∃ res, makeHandShake
            ⟨p :: (rest.take (p.val + 28) ++ peerId.val ++ rest.drop (p.val + 48)), true⟩
            infoHash ourID = .ok res) ↔
        (∃ res, makeHandShake ⟨p :: rest, true⟩ infoHash ourID = .ok res))
    ∧ (∀ r : List Byte, readHandshake ((0 : Byte) :: r) = .error .pstrlenZero) := by
  refine ⟨makeHandShake_ok_iff p rest infoHash ourID hlen, ?_, ?_⟩
  · intro peerId
    have hlen2 : 48 + p.val ≤
        (rest.take (p.val + 28) ++ peerId.val ++ rest.drop (p.val + 48)).length := by
      simp only [List.length_append, List.length_take, List.length_drop, peerId.property]
      omega
    rw [makeHandShake_ok_iff p rest infoHash ourID hlen, makeHandShake_ok_iff p _ infoHash ourID hlen2]
    have e : ((rest.take (p.val + 28) ++ peerId.val ++ rest.drop (p.val + 48)).drop (p.val + 8)).take 20
        = (rest.drop (p.val + 8)).take 20 := by
      rw [List.append_assoc, List.drop_append_of_le_length (by simp; omega),
        List.take_append_of_le_length (by simp; omega), List.drop_take, List.take_take]
      congr 1
      omega
    rw [e]
  · intro r
    simp [readHandshake, readFull]

/-- A reply that `makeHandShake` accepts for C3: the peer echoes our info hash after a one-byte
protocol string and sends its own id. -/
theorem makeHandShake_acceptance_witness :
    48 + ((1 : Byte) : Nat) ≤ ((7 : Byte) :: (makeBytes 8 ++ makeBytes 20 ++ makeBytes 20)).length
    ∧ (∃ res, makeHandShake ⟨(1 : Byte) :: (7 : Byte) :: (makeBytes 8 ++ makeBytes 20 ++ makeBytes 20), true⟩
        ⟨makeBytes 20, rfl⟩ ⟨makeBytes 20, rfl⟩ = .ok res) :=
  ⟨by decide,
   ((makeHandShake_acceptance 1 ((7 : Byte) :: (makeBytes 8 ++ makeBytes 20 ++ makeBytes 20))
      ⟨makeBytes 20, rfl⟩ ⟨makeBytes 20, rfl⟩ (by decide)).1).2 ⟨by decide, by decide⟩⟩

/-! ## The coordinator: seeding -/

/-- An exact result within the range of `int` is not changed by the wrap-around. -/
theorem wrap_eq (P : Platform) (x : Int) (h1 : -P.maxInt - 1 ≤ x) (h2 : x ≤ P.maxInt) :
    P.wrap x = x := by
  rcases P.intBits_eq with h | h <;>
  · simp only [Platform.wrap, Platform.maxInt, h] at *
    norm_num at *
    omega

theorem maxInt_pos (P : Platform) : 0 < P.maxInt := by
  rcases P.intBits_eq with h | h <;>
  · simp only [Platform.maxInt, h]
    norm_num

theorem ceil_bounds (total pl n : Int) (hpl : 0 < pl) (h : n = ⌈(total : ℚ) / (pl : ℚ)⌉) :
    (n - 1) * pl < total ∧ total ≤ n * pl := by
  have hq : (0 : ℚ) < (pl : ℚ) := by exact_mod_cast hpl
  have h' := (Int.ceil_eq_iff.mp h.symm)
  obtain ⟨h1, h2⟩ := h'
  rw [lt_div_iff₀ hq] at h1
  rw [div_le_iff₀ hq] at h2
  constructor
  · have : (((n - 1) * pl : Int) : ℚ) < ((total : Int) : ℚ) := by push_cast; linarith
    exact_mod_cast this
  · exact_mod_cast h2

theorem seedQueue_length (P : Platform) (t : Torrent) :
    (seedQueue P t).length = t.PieceHashes.length := by
  simp [seedQueue]

/-- The offset of piece `i` and the end of the piece before the clamp, for a descriptor whose
`n * piece_length` is an `int`: neither wraps. -/
theorem piece_bounds (P : Platform) (t : Torrent) (hpl : 0 < t.PieceLength)
    (hfit : (t.PieceHashes.length : Int) * t.PieceLength ≤ P.maxInt)
    (i : Nat) (hi : i < t.PieceHashes.length) :
    P.wrap ((i : Int) * t.PieceLength) = (i : Int) * t.PieceLength
    ∧ P.wrap ((i : Int) * t.PieceLength + t.PieceLength) = (i : Int) * t.PieceLength + t.PieceLength
    ∧ 0 ≤ (i : Int) * t.PieceLength
    ∧ (i : Int) * t.PieceLength + t.PieceLength ≤ (t.PieceHashes.length : Int) * t.PieceLength := by
  have h0 : 0 ≤ (i : Int) * t.PieceLength :=
    Int.mul_nonneg (Int.ofNat_nonneg i) (le_of_lt hpl)
  have h1 : ((i : Int) + 1) * t.PieceLength ≤ (t.PieceHashes.length : Int) * t.PieceLength :=
    Int.mul_le_mul_of_nonneg_right (by omega) (le_of_lt hpl)
  have h2 : ((i : Int) + 1) * t.PieceLength = (i : Int) * t.PieceLength + t.PieceLength := by ring
  have hm := maxInt_pos P
  refine ⟨wrap_eq P _ (by omega) (by omega), wrap_eq P _ (by omega) (by omega), h0, by omega⟩

theorem seedQueue_getElem? (P : Platform) (t : Torrent) (hpl : 0 < t.PieceLength)
    (hn : (t.PieceHashes.length : Int) = ⌈(t.Length : ℚ) / (t.PieceLength : ℚ)⌉)
    (hfit : (t.PieceHashes.length : Int) * t.PieceLength ≤ P.maxInt) (i : Nat) :
    (seedQueue P t)[i]? = (t.PieceHashes[i]?).map (fun hsh =>
      { index := (i : Int), hash := hsh,
        length := (if (i : Int) * t.PieceLength + t.PieceLength > t.Length then t.Length
          else (i : Int) * t.PieceLength + t.PieceLength) - (i : Int) * t.PieceLength }) := by
  simp only [seedQueue, List.getElem?_map, List.getElem?_enum]
  cases hh : t.PieceHashes[i]? with
  | none => simp
  | some hsh =>
    have hi : i < t.PieceHashes.length := by
      by_contra hc
      rw [List.getElem?_eq_none (by omega)] at hh
      exact absurd hh (by simp)
    obtain ⟨hb1, hb2⟩ := ceil_bounds _ _ _ hpl hn
    obtain ⟨w1, w2, h0, h1⟩ := piece_bounds P t hpl hfit i hi
    have hlt : (i : Int) * t.PieceLength < t.Length := by
      have : (i : Int) * t.PieceLength ≤ ((t.PieceHashes.length : Int) - 1) * t.PieceLength :=
        Int.mul_le_mul_of_nonneg_right (by omega) (le_of_lt hpl)
      omega
    have hm := maxInt_pos P
    simp only [Option.map_some', w1, w2, Option.some.injEq, onePiece.mk.injEq, true_and]
    apply wrap_eq
    · split <;> omega
    · split <;> omega
/-- The length of the job that `seedQueue` creates for piece `i`, under the descriptor
invariants. -/
theorem seedQueue_job (P : Platform) (t : Torrent) (hpl : 0 < t.PieceLength)
    (hn : (t.PieceHashes.length : Int) = ⌈(t.Length : ℚ) / (t.PieceLength : ℚ)⌉)
    (hfit : (t.PieceHashes.length : Int) * t.PieceLength ≤ P.maxInt)
    (i : Nat) (hsh : List Byte) (hi : t.PieceHashes[i]? = some hsh) :
    (seedQueue P t)[i]? = some
      { index := i, hash := hsh,
        length := if i + 1 < t.PieceHashes.length then t.PieceLength
          else t.Length - ((t.PieceHashes.length : Int) - 1) * t.PieceLength } := by
  obtain ⟨hb1, hb2⟩ := ceil_bounds _ _ _ hpl hn
  have hlt : i < t.PieceHashes.length := by
    by_contra hc
    rw [List.getElem?_eq_none (by omega)] at hi
    exact absurd hi (by simp)
  rw [seedQueue_getElem? P t hpl hn hfit, hi]
  simp only [Option.map_some', Option.some.injEq, onePiece.mk.injEq, true_and]
  by_cases hlast : i + 1 < t.PieceHashes.length
  · have h1 : ((i : Int) + 1) ≤ (t.PieceHashes.length : Int) - 1 := by omega
    have h2 : ((i : Int) + 1) * t.PieceLength ≤ ((t.PieceHashes.length : Int) - 1) * t.PieceLength :=
      Int.mul_le_mul_of_nonneg_right h1 (le_of_lt hpl)
    have h3 : ¬ ((i : Int) * t.PieceLength + t.PieceLength > t.Length) := by
      have : ((i : Int) + 1) * t.PieceLength = (i : Int) * t.PieceLength + t.PieceLength := by ring
      omega
    simp only [h3, hlast, if_true, if_false]
    ring
  · have h1 : (i : Int) = (t.PieceHashes.length : Int) - 1 := by omega
    simp only [hlast, if_false]
    rw [h1]
    have : ((t.PieceHashes.length : Int) - 1) * t.PieceLength + t.PieceLength
        = (t.PieceHashes.length : Int) * t.PieceLength := by ring
    rw [this]
    by_cases hc : (t.PieceHashes.length : Int) * t.PieceLength > t.Length
    · simp only [hc, if_true]
    · simp only [hc, if_false]
      have : t.Length = (t.PieceHashes.length : Int) * t.PieceLength := by omega
      rw [this]

theorem seedQueue_lengths (P : Platform) (t : Torrent) (hpl : 0 < t.PieceLength)
    (hlen : 0 < t.Length)
    (hn : (t.PieceHashes.length : Int) = ⌈(t.Length : ℚ) / (t.PieceLength : ℚ)⌉)
    (hfit : (t.PieceHashes.length : Int) * t.PieceLength ≤ P.maxInt) :
    (seedQueue P t).map (·.length) =
      List.replicate (t.PieceHashes.length - 1) t.PieceLength ++
        [t.Length - ((t.PieceHashes.length : Int) - 1) * t.PieceLength] := by
  obtain ⟨hb1, hb2⟩ := ceil_bounds _ _ _ hpl hn
  have hpos : 0 < t.PieceHashes.length := by
    by_contra hc
    have : (t.PieceHashes.length : Int) = 0 := by omega
    rw [this] at hb2
    omega
  apply List.ext_getElem?
  intro i
  by_cases hi : i < t.PieceHashes.length
  · have hsome : t.PieceHashes[i]? = some t.PieceHashes[i] := List.getElem?_eq_getElem hi
    rw [List.getElem?_map, seedQueue_job P t hpl hn hfit i _ hsome]
    by_cases hlast : i + 1 < t.PieceHashes.length
    · rw [List.getElem?_append_left (by simp; omega)]
      simp only [hlast, if_true]
      rw [List.getElem?_eq_getElem (by simp; omega)]
      simp
    · rw [List.getElem?_append_right (by simp; omega)]
      have : i - (List.replicate (t.PieceHashes.length - 1) t.PieceLength).length = 0 := by
        simp; omega
      have e2 : i - (t.PieceHashes.length - 1) = 0 := by omega
      simp [hlast, e2]
  · rw [List.getElem?_eq_none (by simp [seedQueue_length]; omega),
      List.getElem?_eq_none (by simp; omega)]

/-- C4, as amended. Piece job seeding: for every descriptor with piece_length > 0,
total_length > 0, n = len(piece_hashes) = ceil(total_length / piece_length) and
n * piece_length at most the largest `int` of the platform, `Download` seeds the queue with
exactly n jobs in index order, job i carrying index i and hash piece_hashes[i]; every job except
the last has length piece_length, the last has length total_length - (n-1) * piece_length, every
length is positive and the lengths sum to total_length. -/
theorem download_seeds_queue (P : Platform) (t : Torrent) (results : List outputData)
    (hpl : 0 < t.PieceLength) (hlen : 0 < t.Length)
    (hn : (t.PieceHashes.length : Int) = ⌈(t.Length : ℚ) / (t.PieceLength : ℚ)⌉)
    (hfit : (t.PieceHashes.length : Int) * t.PieceLength ≤ P.maxInt) :
    (Download P t results).1.length = t.PieceHashes.length
    ∧ (∀ (i : Nat) (hsh : List Byte), t.PieceHashes[i]? = some hsh →
        (Download P t results).1[i]? = some
          { index := i, hash := hsh,
            length := if i + 1 < t.PieceHashes.length then t.PieceLength
              else t.Length - ((t.PieceHashes.length : Int) - 1) * t.PieceLength })
    ∧ (∀ op ∈ (Download P t results).1, 0 < op.length)
    ∧ ((Download P t results).1.map (·.length)).sum = t.Length := by
  have hq : (Download P t results).1 = seedQueue P t := by
    simp only [Download]
    split <;> rfl
  obtain ⟨hb1, hb2⟩ := ceil_bounds _ _ _ hpl hn
  rw [hq]
  refine ⟨seedQueue_length P t, fun i hsh hi => seedQueue_job P t hpl hn hfit i hsh hi, ?_, ?_⟩
  · intro op hop
    have hmem : op.length ∈ (seedQueue P t).map (·.length) := List.mem_map_of_mem _ hop
    rw [seedQueue_lengths P t hpl hlen hn hfit, List.mem_append] at hmem
    rcases hmem with h | h
    · rw [(List.mem_replicate.mp h).2]; exact hpl
    · rw [List.mem_singleton.mp h]; omega
  · rw [seedQueue_lengths P t hpl hlen hn hfit]
    simp only [List.sum_append, List.sum_replicate, List.sum_singleton, smul_eq_mul, nsmul_eq_mul]
    have hpos : 0 < t.PieceHashes.length := by
      by_contra hc
      have : (t.PieceHashes.length : Int) = 0 := by omega
      rw [this] at hb2
      omega
    have : ((t.PieceHashes.length - 1 : Nat) : Int) = (t.PieceHashes.length : Int) - 1 := by omega
    rw [this]
    ring

/-- C4 on scenario S2, on linux/amd64: the two jobs have the lengths 16384 and 3616. -/
theorem download_seeds_queue_witness :
    (Download amd64 scenarioS2 []).1.map (·.length) = [16384, 3616]
    ∧ (Download amd64 scenarioS2 []).1.length = 2
    ∧ ((Download amd64 scenarioS2 []).1.map (·.length)).sum = 20000 :=
  have h := download_seeds_queue amd64 scenarioS2 [] (by decide) (by decide) (by
    show ((2 : Nat) : Int) = ⌈((20000 : Int) : ℚ) / ((16384 : Int) : ℚ)⌉
    symm
    rw [Int.ceil_eq_iff]
    norm_num) (by decide)
  ⟨by decide, h.1, h.2.2.2⟩

/-- C4 fails as stated: on linux/amd64 the descriptor with piece_length = 2^62, total_length =
2^62 + 1 and two piece hashes satisfies piece_length > 0, total_length > 0 and n =
ceil(total_length / piece_length) = 2, but `end := begin + PieceLength` wraps for the last
piece, the clamp does not fire, and `Download` seeds the last job with length 2^62 where
total_length - (n-1) * piece_length is 1; the lengths do not sum to total_length. -/
theorem download_seeds_queue_counterexample :
    (0 : Int) < wrapTorrent.PieceLength ∧ (0 : Int) < wrapTorrent.Length
    ∧ (wrapTorrent.PieceHashes.length : Int)
        = ⌈(wrapTorrent.Length : ℚ) / (wrapTorrent.PieceLength : ℚ)⌉
    ∧ wrapTorrent.PieceLength ≤ amd64.maxInt ∧ wrapTorrent.Length ≤ amd64.maxInt
    ∧ (Download amd64 wrapTorrent []).1.map (·.length)
        = [4611686018427387904, 4611686018427387904]
    ∧ wrapTorrent.Length - ((wrapTorrent.PieceHashes.length : Int) - 1) * wrapTorrent.PieceLength
        = 1
    ∧ ((Download amd64 wrapTorrent []).1.map (·.length)).sum ≠ wrapTorrent.Length := by
  refine ⟨by decide, by decide, ?_, by decide, by decide, by decide, by decide, by decide⟩
  show ((2 : Nat) : Int) =
    ⌈((4611686018427387905 : Int) : ℚ) / ((4611686018427387904 : Int) : ℚ)⌉
  symm
  rw [Int.ceil_eq_iff]
  norm_num

/-! ## The piece attempt -/

theorem readMessage_fields (st st' : pieceProgress) (r : ReadResult)
    (h : st.readMessage r = some st') :
    st'.requested = st.requested ∧ st'.index = st.index ∧ st'.backlog ≤ st.backlog := by
  unfold pieceProgress.readMessage at h
  split at h
  · simp at h
  · simp only [Option.some.injEq] at h; subst h; simp
  · split_ifs at h
    · simp only [Option.some.injEq] at h; subst h; simp
    · simp only [Option.some.injEq] at h; subst h; simp
    · split at h
      · simp at h
      · simp only [Option.some.injEq] at h; subst h; simp
    · split at h
      · simp at h
      · simp only [Option.some.injEq] at h; subst h; simp
    · simp only [Option.some.injEq] at h; subst h; simp

/-- The state after one more Request has been sent. -/
theorem requestLoop_step (sendOk : Nat → Bool) (op : onePiece) (fuel sent : Nat)
    (st : pieceProgress) (hc : st.backlog < MaxBacklog ∧ st.requested < op.length) :
    requestLoop sendOk op (fuel + 1) sent st =
      if sendOk sent then
        { requestLoop sendOk op fuel (sent + 1) (st.afterRequest op) with
          events := Event.request op.index st.requested (op.blockSize st.requested) (sendOk sent)
            st.snapshot :: (requestLoop sendOk op fuel (sent + 1) (st.afterRequest op)).events }
      else
        { state := st, sent := sent + 1,
          events := [Event.request op.index st.requested (op.blockSize st.requested) (sendOk sent)
            st.snapshot], ok := false } := by
  simp only [requestLoop, hc, and_self, if_true, pieceProgress.afterRequest, onePiece.blockSize]

theorem requestLoop_stop (sendOk : Nat → Bool) (op : onePiece) (fuel sent : Nat)
    (st : pieceProgress) (hc : ¬ (st.backlog < MaxBacklog ∧ st.requested < op.length)) :
    requestLoop sendOk op fuel sent st = { state := st, sent := sent, events := [], ok := true } := by
  cases fuel with
  | zero => rfl
  | succ n => simp only [requestLoop, hc, if_false]

/-- The inner loop keeps an invariant that its updates keep, and every event of it is a
Request issued in a state that satisfies the invariant and the loop condition. -/
theorem requestLoop_inv (Inv : pieceProgress → Prop) (sendOk : Nat → Bool) (op : onePiece)
    (hreq : ∀ st, Inv st → st.backlog < MaxBacklog → st.requested < op.length →
      Inv (st.afterRequest op))
    (fuel : Nat) : ∀ (sent : Nat) (st : pieceProgress), Inv st →
      Inv (requestLoop sendOk op fuel sent st).state
      ∧ (requestLoop sendOk op fuel sent st).state.client = st.client
      ∧ ∀ e ∈ (requestLoop sendOk op fuel sent st).events, ∃ st' ok, Inv st'
          ∧ st'.client = st.client ∧ st'.backlog < MaxBacklog ∧ st'.requested < op.length
          ∧ e = .request op.index st'.requested (op.blockSize st'.requested) ok st'.snapshot := by
  induction fuel with
  | zero => intro sent st h; exact ⟨h, rfl, by simp [requestLoop]⟩
  | succ n ih =>
    intro sent st h
    by_cases hc : st.backlog < MaxBacklog ∧ st.requested < op.length
    · rw [requestLoop_step _ _ _ _ _ hc]
      cases hs : sendOk sent with
      | true =>
        obtain ⟨h1, h2, h3⟩ := ih (sent + 1) (st.afterRequest op) (hreq st h hc.1 hc.2)
        simp only [if_true]
        refine ⟨h1, by rw [h2]; rfl, ?_⟩
        intro e he
        rcases List.mem_cons.mp he with he | he
        · exact ⟨st, true, h, rfl, hc.1, hc.2, he⟩
        · obtain ⟨st', ok, a, b, c⟩ := h3 e he
          exact ⟨st', ok, a, by rw [b]; rfl, c⟩
      | false =>
        rw [if_neg Bool.false_ne_true]
        refine ⟨h, rfl, ?_⟩
        intro e he
        rw [List.mem_singleton] at he
        exact ⟨st, false, h, rfl, hc.1, hc.2, he⟩
    · rw [requestLoop_stop _ _ _ _ _ hc]
      exact ⟨h, rfl, by simp⟩

/-- The inner loop ends normally only when its condition is false: the iteration bound that
`attemptLoop` passes is never what ends it. -/
theorem requestLoop_exit (sendOk : Nat → Bool) (op : onePiece) (fuel : Nat) :
    ∀ (sent : Nat) (st : pieceProgress), (MaxBacklog - st.backlog).toNat ≤ fuel →
      (requestLoop sendOk op fuel sent st).ok = true →
      ¬ ((requestLoop sendOk op fuel sent st).state.backlog < MaxBacklog
          ∧ (requestLoop sendOk op fuel sent st).state.requested < op.length) := by
  induction fuel with
  | zero =>
    intro sent st hf _
    simp only [requestLoop]
    intro hc
    omega
  | succ n ih =>
    intro sent st hf hok
    by_cases hc : st.backlog < MaxBacklog ∧ st.requested < op.length
    · rw [requestLoop_step _ _ _ _ _ hc] at hok ⊢
      cases hs : sendOk sent with
      | true =>
        simp only [hs, if_true] at hok ⊢
        exact ih (sent + 1) (st.afterRequest op)
          (by simp only [pieceProgress.afterRequest]; omega) hok
      | false => simp [hs] at hok
    · rw [requestLoop_stop _ _ _ _ _ hc]
      exact hc

theorem requestPhase_inv (Inv : pieceProgress → Prop) (sendOk : Nat → Bool) (op : onePiece)
    (hreq : ∀ st, Inv st → st.backlog < MaxBacklog → st.requested < op.length →
      Inv (st.afterRequest op))
    (sent : Nat) (st : pieceProgress) (h : Inv st) :
    Inv (requestPhase sendOk op sent st).state
    ∧ (requestPhase sendOk op sent st).state.client = st.client
    ∧ (∀ e ∈ (requestPhase sendOk op sent st).events, ∃ st' ok, Inv st'
        ∧ st'.client.Choked = false ∧ st'.backlog < MaxBacklog ∧ st'.requested < op.length
        ∧ e = .request op.index st'.requested (op.blockSize st'.requested) ok st'.snapshot)
    ∧ ((requestPhase sendOk op sent st).ok = true → st.client.Choked = false →
        ¬ ((requestPhase sendOk op sent st).state.backlog < MaxBacklog
          ∧ (requestPhase sendOk op sent st).state.requested < op.length)) := by
  unfold requestPhase
  cases hch : st.client.Choked with
  | true =>
    rw [if_neg (by simp)]
    exact ⟨h, rfl, by simp, by simp [hch]⟩
  | false =>
    rw [if_pos (by simp)]
    obtain ⟨h1, h2, h3⟩ := requestLoop_inv Inv sendOk op hreq (MaxBacklog - st.backlog).toNat sent st h
    refine ⟨h1, h2, ?_, ?_⟩
    · intro e he
      obtain ⟨st', ok, a, b, c⟩ := h3 e he
      exact ⟨st', ok, a, by rw [b, hch], c⟩
    · intro hok _
      exact requestLoop_exit sendOk op _ sent st (le_refl _) hok

/-- One round of the outer loop. -/
theorem attemptLoop_eq (sendOk : Nat → Bool) (op : onePiece) (incoming : List ReadResult)
    (sent : Nat) (state : pieceProgress) :
    attemptLoop sendOk op incoming sent state =
      if state.downloaded < op.length then
        if (requestPhase sendOk op sent state).ok = false then
          { outcome := .err, events := (requestPhase sendOk op sent state).events,
            state := (requestPhase sendOk op sent state).state, incoming := incoming,
            sent := (requestPhase sendOk op sent state).sent }
        else
          match incoming with
          | [] =>
            { outcome := .err,
              events := (requestPhase sendOk op sent state).events ++
                [.read .err (requestPhase sendOk op sent state).state.snapshot],
              state := (requestPhase sendOk op sent state).state, incoming := [],
              sent := (requestPhase sendOk op sent state).sent }
          | r :: rest =>
            match (requestPhase sendOk op sent state).state.readMessage r with
            | none =>
              { outcome := .err,
                events := (requestPhase sendOk op sent state).events ++
                  [.read r (requestPhase sendOk op sent state).state.snapshot],
                state := (requestPhase sendOk op sent state).state, incoming := rest,
                sent := (requestPhase sendOk op sent state).sent }
            | some state' =>
              { attemptLoop sendOk op rest (requestPhase sendOk op sent state).sent state' with
                events := (requestPhase sendOk op sent state).events ++
                  .read r (requestPhase sendOk op sent state).state.snapshot ::
                  (attemptLoop sendOk op rest (requestPhase sendOk op sent state).sent state').events }
      else
        { outcome := .ok state.buf, events := [], state := state, incoming := incoming,
          sent := sent } := by
  cases incoming with
  | nil => simp [attemptLoop]
  | cons r rest =>
    rw [attemptLoop]
    simp only [Bool.not_eq_true']

/-- An invariant that the updates of the two loops keep holds in the state every event of a
piece attempt is issued in, and in the final state; a Request is issued only in an unchoked
state in which the inner loop condition holds, and a read only in a state in which, when
unchoked, the inner loop condition is false. -/
theorem attemptLoop_inv (Inv : pieceProgress → Prop) (sendOk : Nat → Bool) (op : onePiece)
    (hreq : ∀ st, Inv st → st.backlog < MaxBacklog → st.requested < op.length →
      Inv (st.afterRequest op))
    (hread : ∀ st r st', Inv st → st.readMessage r = some st' → Inv st')
    (incoming : List ReadResult) : ∀ (sent : Nat) (st : pieceProgress), Inv st →
      Inv (attemptLoop sendOk op incoming sent st).state
      ∧ ∀ e ∈ (attemptLoop sendOk op incoming sent st).events,
        (∃ st' ok, Inv st' ∧ st'.client.Choked = false ∧ st'.backlog < MaxBacklog
          ∧ st'.requested < op.length
          ∧ e = .request op.index st'.requested (op.blockSize st'.requested) ok st'.snapshot)
        ∨ (∃ st' r, Inv st'
          ∧ (st'.client.Choked = false →
              ¬ (st'.backlog < MaxBacklog ∧ st'.requested < op.length))
          ∧ e = .read r st'.snapshot) := by
  induction incoming with
  | nil =>
    intro sent st h
    obtain ⟨p1, p2, p3, p4⟩ := requestPhase_inv Inv sendOk op hreq sent st h
    rw [attemptLoop_eq]
    by_cases hd : st.downloaded < op.length
    · rw [if_pos hd]
      cases hok : (requestPhase sendOk op sent st).ok with
      | false =>
        rw [if_pos rfl]
        exact ⟨p1, fun e he => Or.inl (p3 e he)⟩
      | true =>
        rw [if_neg (by simp)]
        refine ⟨p1, fun e he => ?_⟩
        rcases List.mem_append.mp he with he | he
        · exact Or.inl (p3 e he)
        · rw [List.mem_singleton] at he
          exact Or.inr ⟨_, .err, p1, fun hch => p4 hok (by rw [← p2]; exact hch), he⟩
    · rw [if_neg hd]
      exact ⟨h, by simp⟩
  | cons r rest ih =>
    intro sent st h
    obtain ⟨p1, p2, p3, p4⟩ := requestPhase_inv Inv sendOk op hreq sent st h
    rw [attemptLoop_eq]
    by_cases hd : st.downloaded < op.length
    · rw [if_pos hd]
      cases hok : (requestPhase sendOk op sent st).ok with
      | false =>
        rw [if_pos rfl]
        exact ⟨p1, fun e he => Or.inl (p3 e he)⟩
      | true =>
        rw [if_neg (by simp)]
        have hrd : ∀ e, e = Event.read r (requestPhase sendOk op sent st).state.snapshot →
            ∃ st' r, Inv st' ∧ (st'.client.Choked = false →
              ¬ (st'.backlog < MaxBacklog ∧ st'.requested < op.length))
              ∧ e = .read r st'.snapshot :=
          fun e he => ⟨_, r, p1, fun hch => p4 hok (by rw [← p2]; exact hch), he⟩
        cases hm : (requestPhase sendOk op sent st).state.readMessage r with
        | none =>
          simp only [hm]
          refine ⟨p1, fun e he => ?_⟩
          rcases List.mem_append.mp he with he | he
          · exact Or.inl (p3 e he)
          · rw [List.mem_singleton] at he
            exact Or.inr (hrd e he)
        | some st2 =>
          simp only [hm]
          obtain ⟨q1, q2⟩ := ih (requestPhase sendOk op sent st).sent st2 (hread _ _ _ p1 hm)
          refine ⟨q1, fun e he => ?_⟩
          rcases List.mem_append.mp he with he | he
          · exact Or.inl (p3 e he)
          · rcases List.mem_cons.mp he with he | he
            · exact Or.inr (hrd e he)
            · exact q2 e he
    · rw [if_neg hd]
      exact ⟨h, by simp⟩

/-- The function `make([]byte, n)` does not panic exactly for a length between 0 and the limit
of the runtime. -/
theorem makePanics_eq_false (P : Platform) (n : Int) :
    P.makePanics n = false ↔ 0 ≤ n ∧ n ≤ (P.maxAlloc : Int) := by
  simp only [Platform.makePanics, Bool.or_eq_false_iff, decide_eq_false_iff_not, not_lt]

/-- On every platform `make([]byte, n)` succeeds up to 2^31 - 1 bytes. -/
theorem makePanics_small (P : Platform) (n : Int) (h0 : 0 ≤ n) (h1 : n ≤ 2147483647) :
    P.makePanics n = false := by
  rw [makePanics_eq_false]
  have := P.maxAlloc_ge
  have h2 : ((2 ^ 31 - 1 : Nat) : Int) ≤ (P.maxAlloc : Int) := by exact_mod_cast this
  norm_num at h2
  omega

theorem afterRequest_bounds (op : onePiece) (st : pieceProgress)
    (hb : st.backlog < MaxBacklog) :
    (st.afterRequest op).backlog ≤ MaxBacklog ∧ (st.afterRequest op).requested ≤ op.length := by
  simp only [pieceProgress.afterRequest, onePiece.blockSize, MaxBacklog, MaxBlockSize] at *
  split <;> omega

/-- C9. Pipelining bound: in the state every Request and every read of a piece attempt is
issued in, and in the state the attempt ends in, backlog <= MaxBacklog = 5 and requested <=
piece length; a Request is issued only while the session is unchoked; a read is issued, when the
session is unchoked, only once backlog = 5 or requested = length; and for a piece of 81920
bytes on a choked session whose Requests all succeed, the attempt reads the Unchoke, sends the
five Requests for the offsets 0, 16384, 32768, 49152, 65536 and only then reads again. -/
theorem pipelining_bound (P : Platform) (sendOk : Nat → Bool) (incoming : List ReadResult) (sent : Nat)
    (c : Client) (op : onePiece) :
    (∀ e ∈ (attemptDownloadPiece P sendOk incoming sent c op).events,
        e.snap.backlog ≤ MaxBacklog ∧ e.snap.requested ≤ op.length)
    ∧ (0 ≤ op.length →
        (attemptDownloadPiece P sendOk incoming sent c op).state.backlog ≤ MaxBacklog
        ∧ (attemptDownloadPiece P sendOk incoming sent c op).state.requested ≤ op.length)
    ∧ (∀ index begin length ok s,
        Event.request index begin length ok s ∈ (attemptDownloadPiece P sendOk incoming sent c op).events →
        s.choked = false)
    ∧ (∀ r s, Event.read r s ∈ (attemptDownloadPiece P sendOk incoming sent c op).events →
        s.choked = false → s.backlog = MaxBacklog ∨ s.requested = op.length)
    ∧ MaxBacklog = 5
    ∧ (∀ (index : Int) (hash bitfield : List Byte) (rest : List ReadResult),
        ((attemptDownloadPiece P (fun _ => true) (.msg ⟨MsgUnchoke, []⟩ :: rest) sent
            ⟨true, bitfield⟩ ⟨index, hash, 81920⟩).events.take 7) =
          [ .read (.msg ⟨MsgUnchoke, []⟩) ⟨true, 0, 0, 0⟩,
            .request index 0 16384 true ⟨false, 0, 0, 0⟩,
            .request index 16384 16384 true ⟨false, 0, 16384, 1⟩,
            .request index 32768 16384 true ⟨false, 0, 32768, 2⟩,
            .request index 49152 16384 true ⟨false, 0, 49152, 3⟩,
            .request index 65536 16384 true ⟨false, 0, 65536, 4⟩,
            .read (rest.headD .err) ⟨false, 0, 81920, 5⟩ ]) := by
  have key : P.makePanics op.length = false →
      (attemptDownloadPiece P sendOk incoming sent c op).state.backlog ≤ MaxBacklog
      ∧ (attemptDownloadPiece P sendOk incoming sent c op).state.requested ≤ op.length
      ∧ ∀ e ∈ (attemptDownloadPiece P sendOk incoming sent c op).events,
        (∃ (st' : pieceProgress) (ok : Bool), (st'.backlog ≤ MaxBacklog ∧ st'.requested ≤ op.length)
          ∧ st'.client.Choked = false ∧ st'.backlog < MaxBacklog
          ∧ st'.requested < op.length
          ∧ e = .request op.index st'.requested (op.blockSize st'.requested) ok st'.snapshot)
        ∨ (∃ (st' : pieceProgress) (r : ReadResult), (st'.backlog ≤ MaxBacklog ∧ st'.requested ≤ op.length)
          ∧ (st'.client.Choked = false →
              ¬ (st'.backlog < MaxBacklog ∧ st'.requested < op.length))
          ∧ e = .read r st'.snapshot) := by
    intro hp
    have hL : 0 ≤ op.length := ((makePanics_eq_false P _).mp hp).1
    have h := attemptLoop_inv (fun st => st.backlog ≤ MaxBacklog ∧ st.requested ≤ op.length)
      sendOk op (fun st _ hb _ => afterRequest_bounds op st hb)
      (fun st r st' h hm => by
        obtain ⟨a, _, b⟩ := readMessage_fields st st' r hm
        exact ⟨le_trans b h.1, by rw [a]; exact h.2⟩)
      incoming sent
      { index := op.index, client := c, buf := makeBytes op.length.toNat,
        downloaded := 0, requested := 0, backlog := 0 }
      ⟨show (0 : Int) ≤ MaxBacklog by decide, hL⟩
    simp only [attemptDownloadPiece, hp, Bool.false_eq_true, if_false]
    exact ⟨h.1.1, h.1.2, h.2⟩
  have hneg : ¬ P.makePanics op.length = false →
      (attemptDownloadPiece P sendOk incoming sent c op).events = [] := by
    intro h
    simp only [Bool.not_eq_false] at h
    simp only [attemptDownloadPiece, h, if_true]
  have hfinal : 0 ≤ op.length →
      (attemptDownloadPiece P sendOk incoming sent c op).state.backlog ≤ MaxBacklog
      ∧ (attemptDownloadPiece P sendOk incoming sent c op).state.requested ≤ op.length := by
    intro hL
    by_cases hp : P.makePanics op.length = false
    · exact ⟨(key hp).1, (key hp).2.1⟩
    · simp only [Bool.not_eq_false] at hp
      simp only [attemptDownloadPiece, hp, if_true]
      exact ⟨show (0 : Int) ≤ MaxBacklog by decide, hL⟩
  refine ⟨?_, hfinal, ?_, ?_, rfl, ?_⟩
  · intro e he
    by_cases hL : P.makePanics op.length = false
    · rcases (key hL).2.2 e he with ⟨st', ok, hi, _, _, _, rfl⟩ | ⟨st', r, hi, _, rfl⟩
      · exact hi
      · exact hi
    · rw [hneg hL] at he
      simp at he
  · intro index begin length ok s he
    by_cases hL : P.makePanics op.length = false
    · rcases (key hL).2.2 _ he with ⟨st', ok', _, hch, _, _, heq⟩ | ⟨st', r, _, _, heq⟩
      · injection heq with _ _ _ _ hs
        rw [hs]; exact hch
      · cases heq
    · rw [hneg hL] at he
      simp at he
  · intro r s he hch
    by_cases hL : P.makePanics op.length = false
    · rcases (key hL).2.2 _ he with ⟨st', ok', _, _, _, _, heq⟩ | ⟨st', r', hi, hex, heq⟩
      · cases heq
      · injection heq with _ hs
        subst hs
        have := hex hch
        simp only [pieceProgress.snapshot]
        have h1 := hi.1
        have h2 := hi.2
        by_cases hb : st'.backlog < MaxBacklog
        · right
          have : ¬ st'.requested < op.length := fun hr => this ⟨hb, hr⟩
          omega
        · left; omega
    · rw [hneg hL] at he
      simp at he
  · intro index hash bitfield rest
    simp only [attemptDownloadPiece]
    rw [makePanics_small P 81920 (by norm_num) (by norm_num), if_neg Bool.false_ne_true,
      attemptLoop_eq]
    simp [requestPhase, pieceProgress.readMessage, MsgUnchoke, pieceProgress.snapshot]
    rw [attemptLoop_eq]
    simp [requestPhase, requestLoop, MaxBacklog, MaxBlockSize, pieceProgress.snapshot]
    cases rest with
    | nil => simp
    | cons r rest =>
      simp only []
      split <;> simp
theorem blockRequests_append (op : onePiece) (n m : Nat) : ∀ k : Nat,
    blockRequests op k n ++ blockRequests op (k + n) m = blockRequests op k (n + m) := by
  induction n with
  | zero => intro k; simp [blockRequests]
  | succ n ih =>
    intro k
    rw [show n + 1 + m = (n + m) + 1 by omega]
    simp only [blockRequests, List.cons_append]
    rw [← ih (k + 1), show k + 1 + n = k + (n + 1) by omega]

theorem blockRequests_length (op : onePiece) (n : Nat) : ∀ k : Nat,
    (blockRequests op k n).length = n := by
  induction n with
  | zero => intro k; rfl
  | succ n ih => intro k; simp [blockRequests, ih]

theorem blockRequests_getElem? (op : onePiece) (n : Nat) : ∀ (k j : Nat), j < n →
    (blockRequests op k n)[j]? =
      some (op.index, ((k + j : Nat) : Int) * MaxBlockSize,
        op.blockSize (((k + j : Nat) : Int) * MaxBlockSize)) := by
  induction n with
  | zero => intro k j hj; omega
  | succ n ih =>
    intro k j hj
    cases j with
    | zero => simp [blockRequests]
    | succ j =>
      simp only [blockRequests, List.getElem?_cons_succ]
      rw [ih (k + 1) j (by omega), show k + 1 + j = k + (j + 1) by omega]

theorem requestsOf_append (a b : List Event) :
    requestsOf (a ++ b) = requestsOf a ++ requestsOf b := by
  induction a with
  | nil => rfl
  | cons e a ih => cases e <;> simp [requestsOf, ih]

/-- The Requests of the inner loop are those for consecutive blocks. -/
theorem requestLoop_requests (sendOk : Nat → Bool) (op : onePiece) (fuel : Nat) :
    ∀ (k sent : Nat) (st : pieceProgress),
      st.requested = min ((k : Int) * MaxBlockSize) op.length →
      ∃ n, requestsOf (requestLoop sendOk op fuel sent st).events = blockRequests op k n
        ∧ (n ≠ 0 → ((k + n : Nat) : Int) * MaxBlockSize < op.length + MaxBlockSize)
        ∧ ((requestLoop sendOk op fuel sent st).ok = true →
            (requestLoop sendOk op fuel sent st).state.requested =
              min (((k + n : Nat) : Int) * MaxBlockSize) op.length) := by
  induction fuel with
  | zero =>
    intro k sent st h
    exact ⟨0, rfl, by simp, fun _ => h⟩
  | succ f ih =>
    intro k sent st h
    by_cases hc : st.backlog < MaxBacklog ∧ st.requested < op.length
    · have hk : st.requested = (k : Int) * MaxBlockSize := by
        have := hc.2
        omega
      have hkL : (k : Int) * MaxBlockSize < op.length := by rw [← hk]; exact hc.2
      rw [requestLoop_step _ _ _ _ _ hc]
      cases hs : sendOk sent with
      | true =>
        rw [if_pos rfl]
        have hnext : (st.afterRequest op).requested =
            min (((k + 1 : Nat) : Int) * MaxBlockSize) op.length := by
          simp only [pieceProgress.afterRequest, onePiece.blockSize, hk, MaxBlockSize] at hkL ⊢
          push_cast
          split <;> omega
        obtain ⟨n, h1, h2, h3⟩ := ih (k + 1) (sent + 1) (st.afterRequest op) hnext
        refine ⟨n + 1, ?_, ?_, ?_⟩
        · simp only [requestsOf, blockRequests, h1, hk]
        · intro _
          by_cases hn : n = 0
          · subst hn
            simp only [MaxBlockSize] at hkL ⊢
            push_cast
            omega
          · have := h2 hn
            rw [show k + (n + 1) = k + 1 + n by omega]
            exact this
        · intro hok
          rw [show k + (n + 1) = k + 1 + n by omega]
          exact h3 hok
      | false =>
        rw [if_neg Bool.false_ne_true]
        refine ⟨1, ?_, ?_, by simp⟩
        · simp only [requestsOf, blockRequests, hk]
        · intro _
          simp only [MaxBlockSize] at hkL ⊢
          push_cast
          omega
    · rw [requestLoop_stop _ _ _ _ _ hc]
      exact ⟨0, rfl, by simp, fun _ => h⟩

theorem requestPhase_requests (sendOk : Nat → Bool) (op : onePiece) (k sent : Nat)
    (st : pieceProgress) (h : st.requested = min ((k : Int) * MaxBlockSize) op.length) :
    ∃ n, requestsOf (requestPhase sendOk op sent st).events = blockRequests op k n
      ∧ (n ≠ 0 → ((k + n : Nat) : Int) * MaxBlockSize < op.length + MaxBlockSize)
      ∧ ((requestPhase sendOk op sent st).ok = true →
          (requestPhase sendOk op sent st).state.requested =
            min (((k + n : Nat) : Int) * MaxBlockSize) op.length) := by
  unfold requestPhase
  cases hch : st.client.Choked with
  | true =>
    rw [if_neg (by simp)]
    exact ⟨0, rfl, by simp, fun _ => h⟩
  | false =>
    rw [if_pos (by simp)]
    exact requestLoop_requests sendOk op _ k sent st h

/-- The Requests of the outer loop are those for consecutive blocks. -/
theorem attemptLoop_requests (sendOk : Nat → Bool) (op : onePiece)
    (incoming : List ReadResult) : ∀ (k sent : Nat) (st : pieceProgress),
      st.requested = min ((k : Int) * MaxBlockSize) op.length →
      ∃ n, requestsOf (attemptLoop sendOk op incoming sent st).events = blockRequests op k n
        ∧ (n ≠ 0 → ((k + n : Nat) : Int) * MaxBlockSize < op.length + MaxBlockSize) := by
  induction incoming with
  | nil =>
    intro k sent st h
    obtain ⟨n, p1, p2, _⟩ := requestPhase_requests sendOk op k sent st h
    rw [attemptLoop_eq]
    by_cases hd : st.downloaded < op.length
    · rw [if_pos hd]
      cases hok : (requestPhase sendOk op sent st).ok with
      | false =>
        rw [if_pos rfl]
        exact ⟨n, p1, p2⟩
      | true =>
        rw [if_neg (by simp)]
        exact ⟨n, by simp [requestsOf_append, requestsOf, p1], p2⟩
    · rw [if_neg hd]
      exact ⟨0, rfl, by simp⟩
  | cons r rest ih =>
    intro k sent st h
    obtain ⟨n, p1, p2, p3⟩ := requestPhase_requests sendOk op k sent st h
    rw [attemptLoop_eq]
    by_cases hd : st.downloaded < op.length
    · rw [if_pos hd]
      cases hok : (requestPhase sendOk op sent st).ok with
      | false =>
        rw [if_pos rfl]
        exact ⟨n, p1, p2⟩
      | true =>
        rw [if_neg (by simp)]
        cases hm : (requestPhase sendOk op sent st).state.readMessage r with
        | none =>
          simp only [hm]
          exact ⟨n, by simp [requestsOf_append, requestsOf, p1], p2⟩
        | some st2 =>
          simp only [hm]
          have hst2 : st2.requested = min (((k + n : Nat) : Int) * MaxBlockSize) op.length := by
            rw [(readMessage_fields _ _ _ hm).1]
            exact p3 hok
          obtain ⟨m, q1, q2⟩ := ih (k + n) (requestPhase sendOk op sent st).sent st2 hst2
          refine ⟨n + m, ?_, ?_⟩
          · rw [← blockRequests_append, ← p1, ← q1]
            simp [requestsOf_append, requestsOf]
          · intro hnm
            by_cases hm0 : m = 0
            · subst hm0
              exact p2 (by omega)
            · have := q2 hm0
              rw [show k + (n + m) = k + n + m by omega]
              exact this
    · rw [if_neg hd]
      exact ⟨0, rfl, by simp⟩

/-- C8. Request sequence: for every piece job of length L > 0 and every sequence of incoming
messages, the k-th Request (k = 0, 1, ...) that `attemptDownloadPiece` sends has the job's
index, begin = k * 16384 and length = min(16384, L - k * 16384); every Request has a length
between 1 and 16384 and begin + length <= L; a Request begins where the one before it ends; at
most ceil(L / 16384) Requests are sent; and for L = 3616 the only Request is (index, 0, 3616). -/
theorem request_sequence (P : Platform) (sendOk : Nat → Bool) (incoming : List ReadResult) (sent : Nat)
    (c : Client) (op : onePiece) (hL : 0 < op.length) :
    (∀ (k : Nat) (r : Int × Int × Int),
        (requestsOf (attemptDownloadPiece P sendOk incoming sent c op).events)[k]? = some r →
        r = (op.index, (k : Int) * 16384, min 16384 (op.length - (k : Int) * 16384))
        ∧ 1 ≤ r.2.2 ∧ r.2.2 ≤ 16384 ∧ 0 ≤ r.2.1 ∧ r.2.1 + r.2.2 ≤ op.length)
    ∧ (∀ (k : Nat) (r r' : Int × Int × Int),
        (requestsOf (attemptDownloadPiece P sendOk incoming sent c op).events)[k]? = some r →
        (requestsOf (attemptDownloadPiece P sendOk incoming sent c op).events)[k + 1]? = some r' →
        r'.2.1 = r.2.1 + r.2.2)
    ∧ ((requestsOf (attemptDownloadPiece P sendOk incoming sent c op).events).length : Int)
        ≤ ⌈(op.length : ℚ) / 16384⌉
    ∧ (op.length = 3616 →
        requestsOf (attemptDownloadPiece P sendOk incoming sent c op).events = []
        ∨ requestsOf (attemptDownloadPiece P sendOk incoming sent c op).events =
            [(op.index, 0, 3616)]) := by
  obtain ⟨n, hattempt, hbound⟩ : ∃ n,
      requestsOf (attemptDownloadPiece P sendOk incoming sent c op).events = blockRequests op 0 n
      ∧ (n ≠ 0 → ((0 + n : Nat) : Int) * MaxBlockSize < op.length + MaxBlockSize) := by
    by_cases hp : P.makePanics op.length = false
    · obtain ⟨n, hreqs, hbound⟩ := attemptLoop_requests sendOk op incoming 0 sent
        { index := op.index, client := c, buf := makeBytes op.length.toNat,
          downloaded := 0, requested := 0, backlog := 0 }
        (by simp only [MaxBlockSize]; omega)
      refine ⟨n, ?_, hbound⟩
      simp only [attemptDownloadPiece, hp, Bool.false_eq_true, if_false]
      exact hreqs
    · simp only [Bool.not_eq_false] at hp
      refine ⟨0, ?_, by simp⟩
      simp only [attemptDownloadPiece, hp, if_true]
      rfl
  rw [hattempt]
  simp only [MaxBlockSize, Nat.zero_add] at hbound
  have hget : ∀ (k : Nat) (r : Int × Int × Int), (blockRequests op 0 n)[k]? = some r →
      k < n ∧ r = (op.index, (k : Int) * 16384, min 16384 (op.length - (k : Int) * 16384)) := by
    intro k r hr
    have hk : k < n := by
      by_contra hc
      rw [List.getElem?_eq_none (by rw [blockRequests_length]; omega)] at hr
      exact absurd hr (by simp)
    rw [blockRequests_getElem? op n 0 k hk] at hr
    refine ⟨hk, ?_⟩
    rw [← Option.some.inj hr]
    simp only [onePiece.blockSize, MaxBlockSize, Nat.zero_add]
    congr 2
    split <;> omega
  refine ⟨?_, ?_, ?_, ?_⟩
  · intro k r hr
    obtain ⟨hk, rfl⟩ := hget k r hr
    have := hbound (by omega)
    refine ⟨rfl, ?_, ?_, ?_, ?_⟩ <;> simp only <;> omega
  · intro k r r' hr hr'
    obtain ⟨hk, rfl⟩ := hget k r hr
    obtain ⟨hk', rfl⟩ := hget (k + 1) r' hr'
    have := hbound (by omega)
    simp only
    push_cast
    omega
  · rw [blockRequests_length]
    by_cases hn : n = 0
    · subst hn
      have : (0 : ℚ) ≤ (op.length : ℚ) / 16384 := by
        have : (0 : ℚ) < (op.length : ℚ) := by exact_mod_cast hL
        positivity
      exact_mod_cast Int.ceil_nonneg this
    · have h1 := hbound hn
      have h2 : ((n : Int) - 1 : ℚ) < (op.length : ℚ) / 16384 := by
        rw [lt_div_iff₀ (by norm_num)]
        have : (((n : Int) - 1) * 16384 : Int) < op.length := by omega
        exact_mod_cast this
      have h3 : (((n : Int) - 1 : Int) : ℚ) < ((⌈(op.length : ℚ) / 16384⌉ : Int) : ℚ) := by
        push_cast
        exact lt_of_lt_of_le h2 (Int.le_ceil _)
      have h4 : (n : Int) - 1 < ⌈(op.length : ℚ) / 16384⌉ := by exact_mod_cast h3
      omega
  · intro h3616
    rw [h3616] at hbound
    have hn : n = 0 ∨ n = 1 := by
      by_contra hc
      have := hbound (by omega)
      omega
    rcases hn with rfl | rfl
    · left; rfl
    · right
      simp [blockRequests, onePiece.blockSize, MaxBlockSize, h3616]
/-! ## The worker -/

theorem attemptLoop_no_panic (sendOk : Nat → Bool) (op : onePiece)
    (incoming : List ReadResult) : ∀ (sent : Nat) (st : pieceProgress),
      (attemptLoop sendOk op incoming sent st).outcome ≠ .panic := by
  induction incoming with
  | nil =>
    intro sent st
    rw [attemptLoop_eq]
    split_ifs <;> simp
  | cons r rest ih =>
    intro sent st
    rw [attemptLoop_eq]
    split_ifs
    · simp
    · simp only []
      split
      · simp
      · exact ih _ _
    · simp

theorem attempt_panic_iff (P : Platform) (sendOk : Nat → Bool) (incoming : List ReadResult)
    (sent : Nat) (c : Client) (op : onePiece) :
    (attemptDownloadPiece P sendOk incoming sent c op).outcome = .panic
      ↔ P.makePanics op.length = true := by
  unfold attemptDownloadPiece
  cases h : P.makePanics op.length with
  | true => simp
  | false =>
    simp only [Bool.false_eq_true, if_false, iff_false]
    exact attemptLoop_no_panic _ _ _ _ _

theorem workerLoop_takeWhile (P : Platform) (sha1 : List Byte → List Byte) (sendOk : Nat → Bool)
    (queue : List onePiece) (incoming : List ReadResult) (sent : Nat) (client : Client) :
    (workerLoop P sha1 sendOk queue incoming sent client).takeWhile (fun e => !e.isTook) = []
    ∨ (workerLoop P sha1 sendOk queue incoming sent client).takeWhile (fun e => !e.isTook)
        = [.exited] := by
  cases queue with
  | nil => right; simp [workerLoop, WorkerEvent.isTook]
  | cons op q => left; simp [workerLoop, WorkerEvent.isTook]

/-- Every job that `workerLoop` takes is handled in one of the five shapes, and the jobs taken
are a prefix of the jobs delivered. -/
theorem workerLoop_segments (P : Platform) (sha1 : List Byte → List Byte) (sendOk : Nat → Bool)
    (queue : List onePiece) : ∀ (incoming : List ReadResult) (sent : Nat) (client : Client),
      (∀ p ∈ jobSegments (workerLoop P sha1 sendOk queue incoming sent client),
        SegShape P sha1 p.1 p.2)
      ∧ (jobSegments (workerLoop P sha1 sendOk queue incoming sent client)).map Prod.fst
          <+: queue := by
  induction queue with
  | nil =>
    intro incoming sent client
    simp [workerLoop, jobSegments]
  | cons op q ih =>
    intro incoming sent client
    rw [workerLoop]
    by_cases hbf : HasPiece client.Bitfield op.index = true
    · cases hout : (attemptDownloadPiece P sendOk incoming sent client op).outcome with
      | panic =>
        simp only [hbf, hout, Bool.not_true, Bool.false_eq_true, if_false, jobSegments,
          List.takeWhile, WorkerEvent.isTook, List.mem_singleton, forall_eq, List.map]
        refine ⟨⟨[], Or.inl rfl, Or.inr (Or.inl ⟨by simp, ?_⟩)⟩, ?_⟩
        · exact (attempt_panic_iff _ _ _ _ _ _).mp hout
        · simp
      | err =>
        simp only [hbf, hout, Bool.not_true, Bool.false_eq_true, if_false, jobSegments,
          List.takeWhile, WorkerEvent.isTook, List.mem_singleton, forall_eq, List.map]
        refine ⟨⟨[], Or.inl rfl, Or.inr (Or.inr (Or.inl (by simp)))⟩, ?_⟩
        simp
      | ok buf =>
        obtain ⟨ih1, ih2⟩ := ih (attemptDownloadPiece P sendOk incoming sent client op).incoming
          (attemptDownloadPiece P sendOk incoming sent client op).sent
          (attemptDownloadPiece P sendOk incoming sent client op).state.client
        have htw := workerLoop_takeWhile P sha1 sendOk q
          (attemptDownloadPiece P sendOk incoming sent client op).incoming
          (attemptDownloadPiece P sendOk incoming sent client op).sent
          (attemptDownloadPiece P sendOk incoming sent client op).state.client
        by_cases hck : checkIntegrity sha1 op buf = true
        · simp only [hbf, hout, hck, Bool.not_true, Bool.false_eq_true, if_false, jobSegments,
            List.takeWhile, WorkerEvent.isTook, Bool.not_false, List.mem_cons, forall_eq_or_imp,
            List.map]
          refine ⟨⟨?_, ih1⟩, List.prefix_cons_inj op |>.mpr ih2⟩
          have hsha : sha1 buf = op.hash := by simpa [checkIntegrity] using hck
          rcases htw with h | h
          · exact ⟨[], Or.inl rfl, Or.inr (Or.inr (Or.inr (Or.inr ⟨buf, hsha, by simp only [WorkerEvent.isTook] at h; rw [h]⟩)))⟩
          · exact ⟨[.exited], Or.inr rfl,
              Or.inr (Or.inr (Or.inr (Or.inr ⟨buf, hsha, by simp only [WorkerEvent.isTook] at h; rw [h]⟩)))⟩
        · simp only [hbf, hout, hck, Bool.not_true, Bool.false_eq_true, if_false, jobSegments,
            List.takeWhile, WorkerEvent.isTook, Bool.not_false, List.mem_cons, forall_eq_or_imp,
            List.map, if_true]
          refine ⟨⟨?_, ih1⟩, List.prefix_cons_inj op |>.mpr ih2⟩
          have hsha : sha1 buf ≠ op.hash := by simpa [checkIntegrity] using hck
          rcases htw with h | h
          · exact ⟨[], Or.inl rfl, Or.inr (Or.inr (Or.inr (Or.inl ⟨buf, hsha, by simp only [WorkerEvent.isTook] at h; rw [h]⟩)))⟩
          · exact ⟨[.exited], Or.inr rfl,
              Or.inr (Or.inr (Or.inr (Or.inl ⟨buf, hsha, by simp only [WorkerEvent.isTook] at h; rw [h]⟩)))⟩
    · obtain ⟨ih1, ih2⟩ := ih incoming sent client
      have htw := workerLoop_takeWhile P sha1 sendOk q incoming sent client
      simp only [hbf, Bool.not_false, if_true, jobSegments, List.takeWhile, WorkerEvent.isTook,
        List.mem_cons, forall_eq_or_imp, List.map]
      refine ⟨⟨?_, ih1⟩, List.prefix_cons_inj op |>.mpr ih2⟩
      rcases htw with h | h
      · exact ⟨[], Or.inl rfl, Or.inl (by simp only [WorkerEvent.isTook] at h; rw [h])⟩
      · exact ⟨[.exited], Or.inr rfl, Or.inl (by simp only [WorkerEvent.isTook] at h; rw [h])⟩

theorem startDownload_segments (P : Platform) (sha1 : List Byte → List Byte) (sendOk : Nat → Bool)
    (newClient : Option Client) (queue : List onePiece) (incoming : List ReadResult) :
    (∀ p ∈ jobSegments (startDownload P sha1 sendOk newClient queue incoming),
      SegShape P sha1 p.1 p.2)
    ∧ (jobSegments (startDownload P sha1 sendOk newClient queue incoming)).map Prod.fst
        <+: queue := by
  cases newClient with
  | none => simp [startDownload, jobSegments]
  | some client => exact workerLoop_segments P sha1 sendOk queue incoming 0 client

/-- An event of a log that is no receipt of a job lies before the first receipt or in the
segment of a job. -/
theorem mem_jobSegments (log : List WorkerEvent) : ∀ e ∈ log, e.isTook = false →
    e ∈ log.takeWhile (fun e => !e.isTook) ∨ ∃ p ∈ jobSegments log, e ∈ p.2 := by
  induction log with
  | nil => intro e he; simp at he
  | cons x rest ih =>
    intro e he hne
    rcases List.mem_cons.mp he with rfl | hmem
    · left
      simp [List.takeWhile, hne]
    · cases x with
      | took op =>
        right
        rcases ih e hmem hne with h | ⟨p, hp, hep⟩
        · exact ⟨(op, rest.takeWhile (fun e => !e.isTook)), by simp [jobSegments], h⟩
        · exact ⟨p, by simp [jobSegments, hp], hep⟩
      | requeued _ | attempted _ _ | sentHave _ | emitted _ | exited | crashed =>
        rcases ih e hmem hne with h | ⟨p, hp, hep⟩
        · left
          simp [List.takeWhile, WorkerEvent.isTook]
          right
          simpa [WorkerEvent.isTook] using h
        · right
          exact ⟨p, by simpa [jobSegments] using hp, hep⟩

theorem startDownload_takeWhile (P : Platform) (sha1 : List Byte → List Byte) (sendOk : Nat → Bool)
    (newClient : Option Client) (queue : List onePiece) (incoming : List ReadResult) :
    (startDownload P sha1 sendOk newClient queue incoming).takeWhile (fun e => !e.isTook) = []
    ∨ (startDownload P sha1 sendOk newClient queue incoming).takeWhile (fun e => !e.isTook)
        = [.exited] := by
  cases newClient with
  | none => right; simp [startDownload, WorkerEvent.isTook]
  | some client => exact workerLoop_takeWhile P sha1 sendOk queue incoming 0 client

/-- C6. Only verified pieces are emitted: for every sequence of jobs and every peer behaviour,
every push of a worker to the output channel happens for a job the worker took; the result
pushed has the index of that job and bytes that `attemptDownloadPiece` returned for it and whose
SHA-1 digest equals the job's expected hash; and a job whose download failed or whose digest
differs is not pushed to the output. -/
theorem only_verified_pieces_emitted (P : Platform) (sha1 : List Byte → List Byte) (sendOk : Nat → Bool)
    (newClient : Option Client) (queue : List onePiece) (incoming : List ReadResult) :
    (∀ res, WorkerEvent.emitted res ∈ startDownload P sha1 sendOk newClient queue incoming →
      ∃ p ∈ jobSegments (startDownload P sha1 sendOk newClient queue incoming),
        WorkerEvent.emitted res ∈ p.2)
    ∧ (∀ p ∈ jobSegments (startDownload P sha1 sendOk newClient queue incoming),
        (∀ res, WorkerEvent.emitted res ∈ p.2 →
          res.index = p.1.index ∧ sha1 res.out = p.1.hash
          ∧ checkIntegrity sha1 p.1 res.out = true
          ∧ WorkerEvent.attempted p.1 (some res.out) ∈ p.2)
        ∧ (WorkerEvent.attempted p.1 none ∈ p.2 → ∀ res, WorkerEvent.emitted res ∉ p.2)
        ∧ (∀ buf, WorkerEvent.attempted p.1 (some buf) ∈ p.2 → sha1 buf ≠ p.1.hash →
            ∀ res, WorkerEvent.emitted res ∉ p.2)) := by
  constructor
  · intro res hres
    rcases mem_jobSegments _ _ hres rfl with h | h
    · rcases startDownload_takeWhile P sha1 sendOk newClient queue incoming with e | e
      · rw [e] at h; simp at h
      · rw [e] at h; simp at h
    · exact h
  · intro p hp
    obtain ⟨tail, htail, hshape⟩ := (startDownload_segments P sha1 sendOk newClient queue incoming).1 p hp
    rcases hshape with h | ⟨h, _⟩ | h | ⟨buf, hsha, h⟩ | ⟨buf, hsha, h⟩
    · rcases htail with rfl | rfl <;> rw [h] <;> simp
    · rw [h]; simp
    · rw [h]; simp
    · rcases htail with rfl | rfl <;> rw [h] <;> simp
    · rcases htail with rfl | rfl <;> rw [h] <;> simp [checkIntegrity, hsha]

/-- A worker panics on a job only in `make([]byte, op.length)`: when the length of the job is
negative or above the limit of the runtime. -/
theorem crash_only_on_bad_length (P : Platform) (sha1 : List Byte → List Byte)
    (sendOk : Nat → Bool) (newClient : Option Client) (queue : List onePiece)
    (incoming : List ReadResult) :
    ∀ p ∈ jobSegments (startDownload P sha1 sendOk newClient queue incoming),
      WorkerEvent.crashed ∈ p.2 → p.1.length < 0 ∨ (P.maxAlloc : Int) < p.1.length := by
  intro p hp hc
  obtain ⟨tail, htail, hshape⟩ :=
    (startDownload_segments P sha1 sendOk newClient queue incoming).1 p hp
  have hbad : P.makePanics p.1.length = true := by
    rcases hshape with h | ⟨_, hneg⟩ | h | ⟨buf, _, h⟩ | ⟨buf, _, h⟩
    · rcases htail with rfl | rfl <;> rw [h] at hc <;> simp at hc
    · exact hneg
    · rw [h] at hc; simp at hc
    · rcases htail with rfl | rfl <;> rw [h] at hc <;> simp at hc
    · rcases htail with rfl | rfl <;> rw [h] at hc <;> simp at hc
  simpa [Platform.makePanics] using hbad

theorem download_queue (P : Platform) (t : Torrent) (results : List outputData) :
    (Download P t results).1 = seedQueue P t := by
  simp only [Download]
  split <;> rfl

/-- When the buffer can be allocated, `Download` ends as its collecting loop does. -/
theorem download_collects (P : Platform) (t : Torrent) (results : List outputData)
    (h : P.makePanics t.Length = false) :
    (Download P t results).2 = collect P t results 0 (makeBytes t.Length.toNat) := by
  simp only [Download, h, Bool.false_eq_true, if_false]

/-- The collecting loop panics on a result for which `begin` lies above the clamped `end`. -/
theorem collect_panics_of_wrap (P : Platform) (t : Torrent) (res : outputData)
    (rest : List outputData) (done : Nat) (buf : List Byte)
    (hdone : done < t.PieceHashes.length)
    (hnot : ¬ P.wrap (P.wrap (res.index * t.PieceLength) + t.PieceLength) > t.Length)
    (hlt : P.wrap (P.wrap (res.index * t.PieceLength) + t.PieceLength)
      < P.wrap (res.index * t.PieceLength)) :
    collect P t (res :: rest) done buf = .panicked := by
  rw [collect, if_pos hdone]
  simp only [if_neg hnot]
  have hc : copySlice buf (P.wrap (res.index * t.PieceLength))
      (P.wrap (P.wrap (res.index * t.PieceLength) + t.PieceLength)) res.out = none := by
    unfold copySlice
    rw [if_neg]
    intro h
    omega
  rw [hc]

/-! ## Concrete runs -/

/-- The wrap-around in the collecting loop: on linux/386 the descriptor with two pieces of
2^30 + 1 bytes for 2^31 - 1 bytes satisfies the descriptor invariants, its buffer can be
allocated, and when the result of piece 1 arrives the wrapped `end` lies below `begin`, so
`buf[begin:end]` panics. -/
theorem collect_wraps_on_32_bit :
    (0 : Int) < wrapTorrent32.PieceLength ∧ (0 : Int) < wrapTorrent32.Length
    ∧ (wrapTorrent32.PieceHashes.length : Int)
        = ⌈(wrapTorrent32.Length : ℚ) / (wrapTorrent32.PieceLength : ℚ)⌉
    ∧ wrapTorrent32.Length ≤ (linux386.maxAlloc : Int)
    ∧ (Download linux386 wrapTorrent32 wrapResults32).1.map (·.length)
        = [1073741825, 1073741825]
    ∧ (Download linux386 wrapTorrent32 wrapResults32).2 = .panicked := by
  refine ⟨by decide, by decide, ?_, by decide, ?_, ?_⟩
  · show ((2 : Nat) : Int) = ⌈((2147483647 : Int) : ℚ) / ((1073741825 : Int) : ℚ)⌉
    symm
    rw [Int.ceil_eq_iff]
    norm_num
  · rw [download_queue]
    decide
  · rw [download_collects _ _ _ (by decide), wrapResults32]
    exact collect_panics_of_wrap _ _ _ _ _ _ (by decide) (by decide) (by decide)

/-- C8 on scenario S2: the only Request for the piece of 3616 bytes is (1, 0, 3616). -/
theorem request_sequence_witness :
    (0 : Int) < 3616
    ∧ requestsOf (attemptDownloadPiece amd64 (fun _ => true) [unchokeMsg] 0
        { Choked := true, Bitfield := [0x40] } { index := 1, hash := [], length := 3616 }).events
      = [(1, 0, 3616)]
    ∧ ((requestsOf (attemptDownloadPiece amd64 (fun _ => true) [unchokeMsg] 0
        { Choked := true, Bitfield := [0x40] }
        { index := 1, hash := [], length := 3616 }).events).length : Int)
      ≤ ⌈((3616 : Int) : ℚ) / 16384⌉ :=
  ⟨by decide, by decide,
    (request_sequence amd64 (fun _ => true) [unchokeMsg] 0 { Choked := true, Bitfield := [0x40] }
      { index := 1, hash := [], length := 3616 } (by decide)).2.2.1⟩

theorem sampleRun_segments :
    jobSegments sampleRun =
      [ ({ index := 0, hash := [5], length := 2 },
          [.requeued { index := 0, hash := [5], length := 2 }]),
        ({ index := 1, hash := [6], length := 2 },
          [.attempted { index := 1, hash := [6], length := 2 } (some [2, 3]),
           .requeued { index := 1, hash := [6], length := 2 }]),
        ({ index := 1, hash := [5], length := 2 },
          [.attempted { index := 1, hash := [5], length := 2 } (some [2, 3]),
           .sentHave 1, .emitted { index := 1, out := [2, 3] }, .exited]) ] := by
  decide

/-- C6 on `sampleRun`: the one result pushed is that of the third job, whose hash the served
bytes have. -/
theorem only_verified_pieces_emitted_witness :
    (WorkerEvent.emitted { index := 1, out := [2, 3] } ∈ sampleRun)
    ∧ sumDigest [2, 3] = [5]
    ∧ ∃ p ∈ jobSegments sampleRun, WorkerEvent.emitted { index := 1, out := [2, 3] } ∈ p.2 :=
  ⟨by decide, by decide,
    (only_verified_pieces_emitted amd64 sumDigest (fun _ => true)
      (some { Choked := true, Bitfield := [0x40] }) sampleJobs
      [unchokeMsg, pieceMsg, pieceMsg]).1 { index := 1, out := [2, 3] } (by decide)⟩

theorem hashLoop_succ (backing : List Byte) (len fuel i : Nat) (hashes : List (List Byte)) :
    hashLoop backing len (fuel + 1) i hashes =
      if i < len then
        if i + 20 ≤ backing.length then
          hashLoop backing len fuel (i + 20) (hashes ++ [(backing.drop i).take 20])
        else .panic
      else .returned hashes := rfl

/-- The iteration bound that `getHashPieces` passes never ends the loop: one more iteration
changes nothing. -/
theorem hashLoop_fuel (backing : List Byte) (len fuel : Nat) :
    ∀ (i : Nat) (hashes : List (List Byte)), len ≤ i + 20 * fuel →
      hashLoop backing len (fuel + 1) i hashes = hashLoop backing len fuel i hashes := by
  induction fuel with
  | zero =>
    intro i hashes h
    rw [hashLoop_succ, if_neg (by omega)]
    rfl
  | succ n ih =>
    intro i hashes h
    rw [hashLoop_succ backing len (n + 1) i hashes, hashLoop_succ backing len n i hashes]
    split_ifs
    · exact ih _ _ (by omega)
    · rfl
    · rfl

/-- The loop of `getHashPieces` on a string of `m` whole hashes from offset `i` on. -/
theorem hashLoop_whole (backing : List Byte) (len : Nat) (hcap : len ≤ backing.length)
    (m : Nat) : ∀ (fuel i : Nat) (hashes : List (List Byte)), i + 20 * m = len → m ≤ fuel →
      hashLoop backing len fuel i hashes =
        .returned (hashes ++ (List.range m).map (fun j => (backing.drop (i + 20 * j)).take 20)) := by
  induction m with
  | zero =>
    intro fuel i hashes hi _
    cases fuel with
    | zero => simp [hashLoop]
    | succ f =>
      rw [hashLoop_succ, if_neg (by omega)]
      simp
  | succ m ih =>
    intro fuel i hashes hi hf
    cases fuel with
    | zero => omega
    | succ f =>
      rw [hashLoop_succ, if_pos (by omega), if_pos (by omega), ih f (i + 20) _ (by omega) (by omega)]
      rw [List.range_succ_eq_map, List.map_cons, List.map_map, List.append_assoc]
      congr 2
      simp only [List.singleton_append, Nat.mul_zero, Nat.add_zero, List.cons.injEq, true_and]
      apply List.map_congr_left
      intro j _
      simp only [Function.comp, Nat.succ_eq_add_one]
      rw [show i + 20 + 20 * j = i + 20 * (j + 1) by omega]

/-- What `getHashPieces` does right: on a pieces string whose length is a multiple of 400 it
returns the len/20 hashes, the i-th being the bytes [20*i, 20*i + 20) of the string. -/
theorem getHashPieces_multiple_of_400 (spare : Nat) (pcs : List Byte)
    (h : pcs.length % 400 = 0) :
    getHashPieces spare pcs =
      .returned ((List.range (pcs.length / 20)).map (fun j => (pcs.drop (20 * j)).take 20)) := by
  have hguard : ¬ ((pcs.length / 20) % 20 ≠ 0) := by omega
  unfold getHashPieces
  simp only [hguard, if_false]
  rw [hashLoop_whole (pcs ++ makeBytes spare) pcs.length (by simp) (pcs.length / 20)
    pcs.length 0 [] (by omega) (by omega)]
  simp only [List.nil_append, Nat.zero_add]
  congr 1
  apply List.map_congr_left
  intro j hj
  rw [List.mem_range] at hj
  rw [List.drop_append_of_le_length (by omega), List.take_append_of_le_length]
  simp only [List.length_drop]
  omega

theorem hashLoop_not_fatal (backing : List Byte) (len fuel : Nat) :
    ∀ (i : Nat) (hashes : List (List Byte)), hashLoop backing len fuel i hashes ≠ .fatal := by
  induction fuel with
  | zero => intro i hashes; simp [hashLoop]
  | succ n ih =>
    intro i hashes
    rw [hashLoop]
    split_ifs
    · exact ih _ _
    · simp
    · simp

/-- C10. What `getHashPieces` does where the claim fails: it ends the program with
`log.Fatalln` exactly when len(pcs)/20 is not a multiple of 20; so on every pieces string of 20
bytes (one piece) it ends the program, whatever the capacity of the slice; on a
pieces string of 5 bytes it does not call `log.Fatalln`: it panics on the slice expression
when the capacity is below 20, and else returns one hash of 20 bytes made of the 5 bytes and
15 bytes beyond the length of the slice. -/
theorem getHashPieces_misjudges_length :
    (∀ (spare : Nat) (pcs : Bytes20), getHashPieces spare pcs.val = .fatal)
    ∧ (∀ (spare : Nat) (pcs : List Byte),
        getHashPieces spare pcs = .fatal ↔ (pcs.length / 20) % 20 ≠ 0)
    ∧ (∀ spare : Nat, getHashPieces spare [1, 2, 3, 4, 5] ≠ .fatal)
    ∧ getHashPieces 3 [1, 2, 3, 4, 5] = .panic
    ∧ getHashPieces 27 [1, 2, 3, 4, 5] =
        .returned [[1, 2, 3, 4, 5, 0, 0, 0, 0, 0, 0, 0, 0, 0, 0, 0, 0, 0, 0, 0]] := by
  have hiff : ∀ (spare : Nat) (pcs : List Byte),
      getHashPieces spare pcs = .fatal ↔ (pcs.length / 20) % 20 ≠ 0 := by
    intro spare pcs
    unfold getHashPieces
    by_cases h : (pcs.length / 20) % 20 ≠ 0
    · simp [h]
    · simp only [h, if_false, iff_false]
      exact hashLoop_not_fatal _ _ _ _ _
  refine ⟨?_, hiff, ?_, by decide, by decide⟩
  · intro spare pcs
    rw [hiff, pcs.property]
    decide
  · intro spare
    rw [Ne, hiff]
    decide





end GoTorrent
